import Mathlib

/-
Verification of the swh-loader-mercurial specification against a shallow
embedding of the source code.

Conventions used throughout this development:
- Python byte strings are embedded as `List Nat` (each entry one byte value).
- Python dict-shaped data is embedded either as association lists
  (`List (key × value)`) when iteration order matters, or as functions
  `key → Option value` when only the final mapping matters.
- Fallible code returns `Except` or `Option`.
-/

set_option maxHeartbeats 1000000

abbrev Bytes := List Nat

/-- The 20 zero bytes Mercurial uses as the null node id (NULL_NODE). -/
def NULLID : Bytes := List.replicate 20 0

/-! ## converters.parse_author -/

/-- Result record of converters.parse_author: a dict with keys name, email,
fullname, where name and email may be None. -/
structure Author where
  name : Option Bytes
  email : Option Bytes
  fullname : Bytes
deriving DecidableEq, Repr

/-- Shallow embedding of converters.parse_author (converters.py lines 63-95).
The index lookup name_email.index(b"<") is List.findIdx? on byte 60,
raw_name.endswith(b" ") is a check of the last byte against 32, and
raw_name[:-1] is List.dropLast. -/
def parse_author (name_email : Bytes) : Author :=
  match name_email.findIdx? (· == 60) with
  | none => { name := none, email := none, fullname := name_email }
  | some open_bracket =>
    let raw_name := name_email.take open_bracket
    let raw_email := name_email.drop (open_bracket + 1)
    let name :=
      if raw_name = [] then none
      else if raw_name.getLast? = some 32 then some raw_name.dropLast
      else some raw_name
    let email :=
      match raw_email.findIdx? (· == 62) with
      | none => none
      | some close_bracket => some (raw_email.take close_bracket)
    { name := name, email := email, fullname := name_email }

theorem findIdx_eq_of_split (pre post : Bytes) (c : Nat) (hpre : c ∉ pre) :
    (pre ++ c :: post).findIdx? (· == c) = some pre.length := by
  induction pre with
  | nil => simp [List.findIdx?]
  | cons a as ih =>
    have ha : a ≠ c := by intro h; exact hpre (h ▸ List.mem_cons_self a as)
    have hih := ih (fun h => hpre (List.mem_cons_of_mem a h))
    simp [List.findIdx?_cons, ha, hih]

theorem findIdx_eq_none_of_not_mem (l : Bytes) (c : Nat) (h : c ∉ l) :
    l.findIdx? (· == c) = none := by
  induction l with
  | nil => rfl
  | cons a as ih =>
    have ha : a ≠ c := by intro hh; exact h (hh ▸ List.mem_cons_self a as)
    have hih := ih (fun hh => h (List.mem_cons_of_mem a hh))
    simp [List.findIdx?_cons, ha, hih]

/-- C8: For every author byte string: if it contains no byte 60 (the open
bracket), parse_author returns name and email both none and fullname equal to
the raw bytes. If it splits as pre ++ [60] ++ post with no 60 in pre, then the
returned name is pre with one trailing space (byte 32) trimmed, none when pre
is empty; the email is the segment of post strictly before the first 62 (the
close bracket), none when post has no 62; and fullname is always the input. -/
theorem parse_author_spec (s : Bytes) :
    (60 ∉ s → parse_author s = { name := none, email := none, fullname := s }) ∧
    (∀ pre post, 60 ∉ pre → s = pre ++ 60 :: post →
      (parse_author s).fullname = s ∧
      (parse_author s).name =
        (if pre = [] then none
         else if pre.getLast? = some 32 then some pre.dropLast else some pre) ∧
      (62 ∉ post → (parse_author s).email = none) ∧
      (∀ e rest, 62 ∉ e → post = e ++ 62 :: rest →
        (parse_author s).email = some e)) := by
  constructor
  · intro h
    unfold parse_author
    rw [findIdx_eq_none_of_not_mem s 60 h]
  · intro pre post hpre hs
    subst hs
    have htake : (pre ++ 60 :: post).take pre.length = pre := by
      simp
    have hdrop : (pre ++ 60 :: post).drop (pre.length + 1) = post := by
      rw [List.drop_append_eq_append_drop]
      simp
    have hu : parse_author (pre ++ 60 :: post) =
        { name :=
            if pre = [] then none
            else if pre.getLast? = some 32 then some pre.dropLast
            else some pre,
          email :=
            match post.findIdx? (· == 62) with
            | none => none
            | some close_bracket => some (post.take close_bracket),
          fullname := pre ++ 60 :: post } := by
      unfold parse_author
      rw [findIdx_eq_of_split pre post 60 hpre]
      simp only [htake, hdrop]
    refine ⟨by rw [hu], by rw [hu], ?_, ?_⟩
    · intro hpost
      rw [hu]
      simp only [findIdx_eq_none_of_not_mem post 62 hpost]
    · intro e rest he hsplit
      subst hsplit
      rw [hu]
      simp only [findIdx_eq_of_split e rest 62 he]
      simp

/-- Witness for C8 at a concrete input: parsing "Jane D <jd@x>". -/
theorem parse_author_spec_witness :
    (parse_author [74, 97, 110, 101, 32, 60, 106, 64, 120, 62]).name = some [74, 97, 110, 101] ∧
    (parse_author [74, 97, 110, 101, 32, 60, 106, 64, 120, 62]).email = some [106, 64, 120] ∧
    (parse_author [74, 97, 110, 101, 32, 60, 106, 64, 120, 62]).fullname =
      [74, 97, 110, 101, 32, 60, 106, 64, 120, 62] := by
  have h := (parse_author_spec [74, 97, 110, 101, 32, 60, 106, 64, 120, 62]).2
    [74, 97, 110, 101, 32] [106, 64, 120, 62] (by decide) (by decide)
  refine ⟨?_, ?_, h.1⟩
  · rw [h.2.1]; decide
  · exact h.2.2.2 [106, 64, 120] [] (by decide) (by decide)

/-! ## from_disk.get_revision_parents and bundle20_loader parent handling -/

/-- Parent list of a changeset context as returned by the Mercurial API:
the list holds p1 only when p2 is the null node, and both parents otherwise
(the root changeset has p1 = NULLID). Mercurial itself is an external
collaborator; this captures the parents() contract the loader relies on. -/
def ctxParents (p1 p2 : Bytes) : List Bytes :=
  if p2 = NULLID then [p1] else [p1, p2]

/-- Shallow embedding of HgLoaderFromDisk.get_revision_parents
(from_disk.py lines 474-492): iterate over the context parents, skip NULLID,
and map every remaining hg node id through get_revision_id_from_hg_nodeid,
embedded here as the resolution function resolve. -/
def get_revision_parents (resolve : Bytes → Bytes) (p1 p2 : Bytes) : List Bytes :=
  (ctxParents p1 p2).foldl
    (fun parents p => if p = NULLID then parents else parents ++ [resolve p]) []

/-- Shallow embedding of the parent handling in HgBundle20Loader.get_revisions
(bundle20_loader.py lines 397-402): p1 and p2 are looked up in the
node_2_rev dict (node2rev, returning none for missing keys, NULLID included)
and appended only when the lookup result is truthy (non-None and non-empty). -/
def bundle20_parents (node2rev : Bytes → Option Bytes) (p1 p2 : Bytes) : List Bytes :=
  let l1 : List Bytes :=
    match node2rev p1 with
    | some r => if r = [] then [] else [r]
    | none => []
  let l2 : List Bytes :=
    match node2rev p2 with
    | some r => if r = [] then [] else [r]
    | none => []
  l1 ++ l2

/-- C1: for every loaded changeset, the emitted revision parents are exactly
the resolved ids of the non-null parents, in (p1, p2) order: NULLID parents
are dropped and every other parent is mapped through the node-to-revision-id
resolution. This holds for the from-disk loader unconditionally, and for the
bundle20 loader under the hypotheses that the null node is never registered in
node_2_rev and that every non-null parent is registered with a non-empty
revision id. -/
theorem revision_parents_filter_map (resolve : Bytes → Bytes)
    (node2rev : Bytes → Option Bytes) (p1 p2 : Bytes)
    (hnull : node2rev NULLID = none)
    (hreg : ∀ p, p ≠ NULLID → (p = p1 ∨ p = p2) →
      node2rev p = some (resolve p) ∧ resolve p ≠ []) :
    get_revision_parents resolve p1 p2 =
      (([p1, p2].filter (· ≠ NULLID)).map resolve) ∧
    bundle20_parents node2rev p1 p2 =
      (([p1, p2].filter (· ≠ NULLID)).map resolve) := by
  constructor
  · by_cases h1 : p1 = NULLID <;> by_cases h2 : p2 = NULLID <;>
      simp [get_revision_parents, ctxParents, h1, h2]
  · by_cases h1 : p1 = NULLID <;> by_cases h2 : p2 = NULLID
    · simp [bundle20_parents, h1, h2, hnull]
    · have h := hreg p2 h2 (Or.inr rfl)
      simp [bundle20_parents, h1, h2, hnull, h.1, h.2]
    · have h := hreg p1 h1 (Or.inl rfl)
      simp [bundle20_parents, h1, h2, hnull, h.1, h.2]
    · have ha := hreg p1 h1 (Or.inl rfl)
      have hb := hreg p2 h2 (Or.inr rfl)
      simp [bundle20_parents, h1, h2, ha.1, ha.2, hb.1, hb.2]

/-- Witness for C1 at a concrete input: p1 is a real node, p2 is NULLID. -/
theorem revision_parents_filter_map_witness :
    get_revision_parents (fun _ => [7]) (List.replicate 20 1) NULLID = [[7]] ∧
    bundle20_parents
      (fun p => if p = List.replicate 20 1 then some [7] else none)
      (List.replicate 20 1) NULLID = [[7]] := by
  have h := revision_parents_filter_map (fun _ => [7])
    (fun p => if p = List.replicate 20 1 then some [7] else none)
    (List.replicate 20 1) NULLID (by decide)
    (by intro p hp hor
        rcases hor with h | h
        · subst h; exact ⟨by decide, by decide⟩
        · subst h; exact absurd rfl hp)
  refine ⟨?_, ?_⟩
  · rw [h.1]; decide
  · rw [h.2]; decide

/-! ## from_disk.store_revision extra headers -/

/-- Byte string constants used by store_revision. -/
def branchBytes : Bytes := [98, 114, 97, 110, 99, 104]

def defaultBytes : Bytes := [100, 101, 102, 97, 117, 108, 116]

def transplantSourceBytes : Bytes :=
  [116, 114, 97, 110, 115, 112, 108, 97, 110, 116, 95,
   115, 111, 117, 114, 99, 101]

def timeOffsetSecondsBytes : Bytes :=
  [116, 105, 109, 101, 95, 111, 102, 102, 115, 101, 116, 95,
   115, 101, 99, 111, 110, 100, 115]

/-- One hexadecimal digit in lowercase ASCII. -/
def hexDigit (n : Nat) : Nat := if n < 10 then 48 + n else 87 + n

/-- Shallow embedding of swh.model.hashutil.hash_to_bytehex: each byte of the
input becomes two lowercase hex digit bytes. -/
def hash_to_bytehex (h : Bytes) : Bytes :=
  h.flatMap (fun b => [hexDigit (b / 16), hexDigit (b % 16)])

/-- Shallow embedding of the extra_headers construction in
HgLoaderFromDisk.store_revision (from_disk.py lines 517-530): the list starts
with the time_offset_seconds entry (tosValue stands for str(offset).encode()),
then for every (key, value) of rev_ctx.extra() the branch:default entry is
skipped, the transplant_source value is hex encoded, and everything else is
appended unchanged. -/
def extraHeaders (tosValue : Bytes) (extra : List (Bytes × Bytes)) :
    List (Bytes × Bytes) :=
  extra.foldl
    (fun acc kv =>
      if kv.1 = branchBytes ∧ kv.2 = defaultBytes then acc
      else if kv.1 = transplantSourceBytes then
        acc ++ [(kv.1, hash_to_bytehex kv.2)]
      else acc ++ [kv])
    [(timeOffsetSecondsBytes, tosValue)]

theorem extraHeaders_foldl_mono (extra : List (Bytes × Bytes))
    (init : List (Bytes × Bytes)) (kv : Bytes × Bytes) (h : kv ∈ init) :
    kv ∈ extra.foldl
      (fun acc kv =>
        if kv.1 = branchBytes ∧ kv.2 = defaultBytes then acc
        else if kv.1 = transplantSourceBytes then
          acc ++ [(kv.1, hash_to_bytehex kv.2)]
        else acc ++ [kv])
      init := by
  induction extra generalizing init with
  | nil => exact h
  | cons hd tl ih =>
    rw [List.foldl_cons]
    by_cases hbd : hd.1 = branchBytes ∧ hd.2 = defaultBytes
    · rw [if_pos hbd]; exact ih init h
    · by_cases hts : hd.1 = transplantSourceBytes
      · rw [if_neg hbd, if_pos hts]
        exact ih _ (List.mem_append_left _ h)
      · rw [if_neg hbd, if_neg hts]
        exact ih _ (List.mem_append_left _ h)

theorem extraHeaders_no_branch_default (extra : List (Bytes × Bytes))
    (init : List (Bytes × Bytes))
    (h : (branchBytes, defaultBytes) ∉ init) :
    (branchBytes, defaultBytes) ∉ extra.foldl
      (fun acc kv =>
        if kv.1 = branchBytes ∧ kv.2 = defaultBytes then acc
        else if kv.1 = transplantSourceBytes then
          acc ++ [(kv.1, hash_to_bytehex kv.2)]
        else acc ++ [kv])
      init := by
  induction extra generalizing init with
  | nil => exact h
  | cons hd tl ih =>
    rw [List.foldl_cons]
    by_cases hbd : hd.1 = branchBytes ∧ hd.2 = defaultBytes
    · rw [if_pos hbd]; exact ih init h
    · by_cases hts : hd.1 = transplantSourceBytes
      · rw [if_neg hbd, if_pos hts]
        apply ih
        intro hmem
        rcases List.mem_append.mp hmem with hi | hone
        · exact h hi
        · have heq := List.mem_singleton.mp hone
          have : branchBytes = hd.1 := congrArg Prod.fst heq
          rw [← this] at hts
          exact absurd hts (by decide)
      · rw [if_neg hbd, if_neg hts]
        apply ih
        intro hmem
        rcases List.mem_append.mp hmem with hi | hone
        · exact h hi
        · have heq := List.mem_singleton.mp hone
          exact hbd ⟨congrArg Prod.fst heq.symm, congrArg Prod.snd heq.symm⟩

theorem extraHeaders_foldl_transplant (extra : List (Bytes × Bytes))
    (init : List (Bytes × Bytes)) (v : Bytes)
    (hv : (transplantSourceBytes, v) ∈ extra) :
    (transplantSourceBytes, hash_to_bytehex v) ∈ extra.foldl
      (fun acc kv =>
        if kv.1 = branchBytes ∧ kv.2 = defaultBytes then acc
        else if kv.1 = transplantSourceBytes then
          acc ++ [(kv.1, hash_to_bytehex kv.2)]
        else acc ++ [kv])
      init := by
  induction extra generalizing init with
  | nil => exact absurd hv (List.not_mem_nil _)
  | cons hd tl ih =>
    rw [List.foldl_cons]
    rcases List.mem_cons.mp hv with heq | hmem
    · have h1 : hd.1 = transplantSourceBytes := congrArg Prod.fst heq.symm
      have h2 : hd.2 = v := congrArg Prod.snd heq.symm
      have hbd : ¬(hd.1 = branchBytes ∧ hd.2 = defaultBytes) := by
        intro hc
        rw [h1] at hc
        exact absurd hc.1 (by decide)
      rw [if_neg hbd, if_pos h1]
      apply extraHeaders_foldl_mono
      apply List.mem_append_right
      rw [h1, h2]
      exact List.mem_singleton.mpr rfl
    · by_cases hbd : hd.1 = branchBytes ∧ hd.2 = defaultBytes
      · rw [if_pos hbd]; exact ih _ hmem
      · by_cases hts : hd.1 = transplantSourceBytes
        · rw [if_neg hbd, if_pos hts]; exact ih _ hmem
        · rw [if_neg hbd, if_neg hts]; exact ih _ hmem

theorem extraHeaders_foldl_branch (extra : List (Bytes × Bytes))
    (init : List (Bytes × Bytes)) (v : Bytes) (hvd : v ≠ defaultBytes)
    (hv : (branchBytes, v) ∈ extra) :
    (branchBytes, v) ∈ extra.foldl
      (fun acc kv =>
        if kv.1 = branchBytes ∧ kv.2 = defaultBytes then acc
        else if kv.1 = transplantSourceBytes then
          acc ++ [(kv.1, hash_to_bytehex kv.2)]
        else acc ++ [kv])
      init := by
  induction extra generalizing init with
  | nil => exact absurd hv (List.not_mem_nil _)
  | cons hd tl ih =>
    rw [List.foldl_cons]
    rcases List.mem_cons.mp hv with heq | hmem
    · have h1 : hd.1 = branchBytes := congrArg Prod.fst heq.symm
      have h2 : hd.2 = v := congrArg Prod.snd heq.symm
      have hbd : ¬(hd.1 = branchBytes ∧ hd.2 = defaultBytes) := by
        intro hc
        exact hvd (h2 ▸ hc.2)
      have hts : ¬hd.1 = transplantSourceBytes := by
        rw [h1]; decide
      rw [if_neg hbd, if_neg hts]
      apply extraHeaders_foldl_mono
      apply List.mem_append_right
      rw [← h1, ← h2]
      exact List.mem_singleton.mpr rfl
    · by_cases hbd : hd.1 = branchBytes ∧ hd.2 = defaultBytes
      · rw [if_pos hbd]; exact ih _ hmem
      · by_cases hts : hd.1 = transplantSourceBytes
        · rw [if_neg hbd, if_pos hts]; exact ih _ hmem
        · rw [if_neg hbd, if_neg hts]; exact ih _ hmem

/-- C7: for every changeset whose extra metadata has a transplant_source
entry, the emitted extra_headers contain (transplant_source, hex(node));
the branch:default extra is suppressed while every other branch extra is
kept unchanged. -/
theorem store_revision_extra_headers (tosValue : Bytes)
    (extra : List (Bytes × Bytes)) :
    (∀ v, (transplantSourceBytes, v) ∈ extra →
      (transplantSourceBytes, hash_to_bytehex v) ∈ extraHeaders tosValue extra) ∧
    (branchBytes, defaultBytes) ∉ extraHeaders tosValue extra ∧
    (∀ v, v ≠ defaultBytes → (branchBytes, v) ∈ extra →
      (branchBytes, v) ∈ extraHeaders tosValue extra) := by
  refine ⟨?_, ?_, ?_⟩
  · intro v hv
    exact extraHeaders_foldl_transplant extra _ v hv
  · apply extraHeaders_no_branch_default extra _
    intro hmem
    have heq := List.mem_singleton.mp hmem
    have h1 : branchBytes = timeOffsetSecondsBytes := congrArg Prod.fst heq
    exact absurd h1 (by decide)
  · intro v hvd hv
    exact extraHeaders_foldl_branch extra _ v hvd hv

/-- Witness for C7 at a concrete extra dict holding a transplant_source
entry, a branch:default entry and a branch:stable entry. -/
theorem store_revision_extra_headers_witness :
    (transplantSourceBytes, hash_to_bytehex [0, 255]) ∈
      extraHeaders [48]
        [(branchBytes, defaultBytes), (transplantSourceBytes, [0, 255]),
         (branchBytes, [115])] ∧
    (branchBytes, defaultBytes) ∉
      extraHeaders [48]
        [(branchBytes, defaultBytes), (transplantSourceBytes, [0, 255]),
         (branchBytes, [115])] ∧
    (branchBytes, [115]) ∈
      extraHeaders [48]
        [(branchBytes, defaultBytes), (transplantSourceBytes, [0, 255]),
         (branchBytes, [115])] := by
  have h := store_revision_extra_headers [48]
    [(branchBytes, defaultBytes), (transplantSourceBytes, [0, 255]),
     (branchBytes, [115])]
  exact ⟨h.1 [0, 255] (by decide), h.2.1,
    h.2.2 [115] (by decide) (by decide)⟩

/-! ## slow_loader.SimpleTree and from_disk.HgDirectory: tree deletion -/

/-- Tree model of slow_loader.SimpleTree / from_disk.HgDirectory: a node is a
blob (SimpleBlob, content abstracted to a Nat) or a directory holding an
association list of child name to child node (dict with unique keys). -/
inductive HgTree where
  | file (h : Nat)
  | dir (entries : List (Bytes × HgTree))

/-- Lookup of the first entry with the given name (dict access). -/
def treeLookup (k : Bytes) : List (Bytes × HgTree) → Option HgTree
  | [] => none
  | (k2, t) :: rest => if k2 = k then some t else treeLookup k rest

/-- Removal of the first entry with the given name (dict del). -/
def treeErase (k : Bytes) : List (Bytes × HgTree) → List (Bytes × HgTree)
  | [] => []
  | (k2, t) :: rest => if k2 = k then rest else (k2, t) :: treeErase k rest

/-- In-place replacement of the value of the first entry with the given name
(the functional image of mutating the child dict). -/
def treeSet (k : Bytes) (v : HgTree) : List (Bytes × HgTree) → List (Bytes × HgTree)
  | [] => []
  | (k2, t) :: rest => if k2 = k then (k2, v) :: rest else (k2, t) :: treeSet k v rest

/-- Shallow embedding of SimpleTree.remove_tree_node_for_path
(slow_loader.py lines 106-115). The path is already split on the path
separator. On the last segment, del self[first]; otherwise recurse into the
child tree, write the mutated child back, and if the child is now an empty
dict, delete it as well. none embeds a raised KeyError or a recursion into a
blob. -/
def remove_tree_node_for_path :
    List (Bytes × HgTree) → List Bytes → Option (List (Bytes × HgTree))
  | _, [] => none
  | entries, first :: rest =>
    match rest with
    | [] =>
      match treeLookup first entries with
      | none => none
      | some _ => some (treeErase first entries)
    | _ :: _ =>
      match treeLookup first entries with
      | none => none
      | some (.file _) => none
      | some (.dir ces) =>
        match remove_tree_node_for_path ces rest with
        | none => none
        | some ces2 =>
          match ces2 with
          | [] => some (treeErase first (treeSet first (.dir ces2) entries))
          | _ :: _ => some (treeSet first (.dir ces2) entries)

/-- Path lookup in a tree; some (file h) means the path names a blob. -/
def getPath : HgTree → List Bytes → Option HgTree
  | t, [] => some t
  | .file _, _ :: _ => none
  | .dir entries, k :: rest =>
    match treeLookup k entries with
    | none => none
    | some c => getPath c rest

/-- The tree has no empty directory strictly below its root. -/
inductive NoEmptyBelow : HgTree → Prop where
  | file : ∀ h, NoEmptyBelow (.file h)
  | dir : ∀ entries,
      (∀ kt ∈ entries, kt.2 ≠ HgTree.dir []) →
      (∀ kt ∈ entries, NoEmptyBelow kt.2) →
      NoEmptyBelow (.dir entries)

theorem treeLookup_mem (k : Bytes) (es : List (Bytes × HgTree)) (t : HgTree)
    (h : treeLookup k es = some t) : (k, t) ∈ es := by
  induction es with
  | nil => exact absurd h (by simp [treeLookup])
  | cons hd tl ih =>
    rcases hd with ⟨k2, t2⟩
    by_cases hk : k2 = k
    · rw [treeLookup, if_pos hk] at h
      exact hk ▸ (Option.some.inj h ▸ List.mem_cons_self _ _)
    · rw [treeLookup, if_neg hk] at h
      exact List.mem_cons_of_mem _ (ih h)

theorem treeErase_subset (k : Bytes) (es : List (Bytes × HgTree))
    (kt : Bytes × HgTree) (h : kt ∈ treeErase k es) : kt ∈ es := by
  induction es with
  | nil => simp [treeErase] at h
  | cons hd tl ih =>
    rcases hd with ⟨k2, t2⟩
    by_cases hk : k2 = k
    · rw [treeErase, if_pos hk] at h
      exact List.mem_cons_of_mem _ h
    · rw [treeErase, if_neg hk] at h
      rcases List.mem_cons.mp h with heq | hm
      · exact heq ▸ List.mem_cons_self _ _
      · exact List.mem_cons_of_mem _ (ih hm)

theorem treeSet_mem (k : Bytes) (v : HgTree) (es : List (Bytes × HgTree))
    (kt : Bytes × HgTree) (h : kt ∈ treeSet k v es) : kt ∈ es ∨ kt.2 = v := by
  induction es with
  | nil => simp [treeSet] at h
  | cons hd tl ih =>
    rcases hd with ⟨k2, t2⟩
    by_cases hk : k2 = k
    · rw [treeSet, if_pos hk] at h
      rcases List.mem_cons.mp h with heq | hm
      · exact Or.inr (by rw [heq])
      · exact Or.inl (List.mem_cons_of_mem _ hm)
    · rw [treeSet, if_neg hk] at h
      rcases List.mem_cons.mp h with heq | hm
      · exact Or.inl (heq ▸ List.mem_cons_self _ _)
      · rcases ih hm with hm2 | hv
        · exact Or.inl (List.mem_cons_of_mem _ hm2)
        · exact Or.inr hv

theorem treeErase_treeSet (k : Bytes) (v : HgTree) (es : List (Bytes × HgTree)) :
    treeErase k (treeSet k v es) = treeErase k es := by
  induction es with
  | nil => rfl
  | cons hd tl ih =>
    rcases hd with ⟨k2, t2⟩
    by_cases hk : k2 = k
    · rw [treeSet, if_pos hk, treeErase, if_pos hk, treeErase, if_pos hk]
    · rw [treeSet, if_neg hk, treeErase, if_neg hk, treeErase, if_neg hk, ih]

/-- C9: for every directory tree with no empty subdirectory and every blob
path present in it, remove_tree_node_for_path succeeds and the resulting tree
again has no empty subdirectory: every ancestor directory of the removed
entry that became empty has itself been removed. -/
theorem remove_tree_no_empty_subtree (p : List Bytes) :
    ∀ (entries : List (Bytes × HgTree)),
    NoEmptyBelow (.dir entries) →
    (∃ h, getPath (.dir entries) p = some (.file h)) →
    ∃ entries2, remove_tree_node_for_path entries p = some entries2 ∧
      NoEmptyBelow (.dir entries2) := by
  induction p with
  | nil =>
    intro entries _ hfile
    obtain ⟨h, hget⟩ := hfile
    exact absurd hget (by simp [getPath])
  | cons first rest ih =>
    intro entries hne hfile
    obtain ⟨h, hget⟩ := hfile
    rw [getPath] at hget
    cases hlk : treeLookup first entries with
    | none => rw [hlk] at hget; exact absurd hget (by simp)
    | some c =>
      rw [hlk] at hget
      have hcmem := treeLookup_mem first entries c hlk
      have hcne : c ≠ HgTree.dir [] := by
        cases hne with
        | dir _ hp1 _ => exact hp1 (first, c) hcmem
      have hcprop : NoEmptyBelow c := by
        cases hne with
        | dir _ _ hp2 => exact hp2 (first, c) hcmem
      cases rest with
      | nil =>
        refine ⟨treeErase first entries, ?_, ?_⟩
        · rw [remove_tree_node_for_path]
          simp only [hlk]
        · apply NoEmptyBelow.dir
          · intro kt hkt
            cases hne with
            | dir _ hp1 _ => exact hp1 kt (treeErase_subset first entries kt hkt)
          · intro kt hkt
            cases hne with
            | dir _ _ hp2 => exact hp2 kt (treeErase_subset first entries kt hkt)
      | cons r2 rs =>
        cases c with
        | file hf => simp [getPath] at hget
        | dir ces =>
          obtain ⟨ces2, hrem, hne2⟩ := ih ces hcprop ⟨h, hget⟩
          cases ces2 with
          | nil =>
            refine ⟨treeErase first (treeSet first (.dir []) entries), ?_, ?_⟩
            · rw [remove_tree_node_for_path]
              simp only [hlk, hrem]
            · rw [treeErase_treeSet]
              apply NoEmptyBelow.dir
              · intro kt hkt
                cases hne with
                | dir _ hp1 _ => exact hp1 kt (treeErase_subset first entries kt hkt)
              · intro kt hkt
                cases hne with
                | dir _ _ hp2 => exact hp2 kt (treeErase_subset first entries kt hkt)
          | cons ce2h ce2t =>
            refine ⟨treeSet first (.dir (ce2h :: ce2t)) entries, ?_, ?_⟩
            · rw [remove_tree_node_for_path]
              simp only [hlk, hrem]
            · apply NoEmptyBelow.dir
              · intro kt hkt
                rcases treeSet_mem first (.dir (ce2h :: ce2t)) entries kt hkt with hm | hv
                · cases hne with
                  | dir _ hp1 _ => exact hp1 kt hm
                · rw [hv]
                  intro hc
                  injection hc with hc2
                  exact absurd hc2 (by simp)
              · intro kt hkt
                rcases treeSet_mem first (.dir (ce2h :: ce2t)) entries kt hkt with hm | hv
                · cases hne with
                  | dir _ _ hp2 => exact hp2 kt hm
                · rw [hv]; exact hne2

/-- Witness for C9: removing the blob at path a/b from the tree
{a: {b: blob 1}, c: blob 2} prunes the now-empty directory a. -/
theorem remove_tree_no_empty_subtree_witness :
    ∃ entries2,
      remove_tree_node_for_path
        [([97], HgTree.dir [([98], HgTree.file 1)]), ([99], HgTree.file 2)]
        [[97], [98]] = some entries2 ∧
      NoEmptyBelow (.dir entries2) := by
  apply remove_tree_no_empty_subtree
  · apply NoEmptyBelow.dir
    · intro kt hkt
      rcases List.mem_cons.mp hkt with h | h
      · rw [h]
        intro hc
        injection hc with h2
        simp at h2
      · rw [List.mem_singleton.mp h]
        intro hc
        exact HgTree.noConfusion hc
    · intro kt hkt
      rcases List.mem_cons.mp hkt with h | h
      · rw [h]
        apply NoEmptyBelow.dir
        · intro kt2 hkt2
          rw [List.mem_singleton.mp hkt2]
          intro hc
          exact HgTree.noConfusion hc
        · intro kt2 hkt2
          rw [List.mem_singleton.mp hkt2]
          exact NoEmptyBelow.file 1
      · rw [List.mem_singleton.mp h]
        exact NoEmptyBelow.file 2
  · exact ⟨1, rfl⟩

/-! ## chunked_reader.ChunkedFileReader -/

/-- Big-endian 32-bit encoding, the image of struct.pack with format >I. -/
def u32be (n : Nat) : Bytes :=
  [n / 2 ^ 24 % 256, n / 2 ^ 16 % 256, n / 2 ^ 8 % 256, n % 256]

/-- struct.unpack with format >I on a byte string: fails (struct.error) when
fewer than 4 bytes are available. -/
def unpackU32 : Bytes → Option Nat
  | a :: b :: c :: d :: _ => some (((a * 256 + b) * 256 + c) * 256 + d)
  | _ => none

/-- A Python binary file object: read returns the available bytes (possibly
fewer than requested at end of file) and advances the position. -/
structure PyFile where
  data : Bytes
  pos : Nat
deriving DecidableEq, Repr

def fileRead (f : PyFile) (n : Nat) : Bytes × PyFile :=
  let bs := (f.data.drop f.pos).take n
  (bs, { f with pos := f.pos + bs.length })

/-- Failures of the chunked reader: eof stands for the struct.error raised
when a size prefix cannot be read at end of data, inconsistentChunk for the
defensive chunk size assertion, badSeek for the seek position assertion. -/
inductive ReadError where
  | eof
  | inconsistentChunk
  | badSeek
deriving DecidableEq, Repr

/-- State of chunked_reader.ChunkedFileReader: the wrapped file, the chunk
size read at construction (_bytes_per_chunk), the number of payload bytes
left in the current chunk (_chunk_bytes_left), the payload start offset
(_offset) and the total file size (_size). The >I size prefix is 4 bytes. -/
structure ChunkedFileReader where
  file : PyFile
  bytesPerChunk : Nat
  chunkBytesLeft : Nat
  offset : Nat
  size : Nat
deriving DecidableEq, Repr

/-- Embedding of ChunkedFileReader._chunk_size (chunked_reader.py lines
29-42): unpack the next 4 bytes as a big-endian u32; unless called at
construction time, raise if the size differs from _bytes_per_chunk while not
within the last chunk of the file. -/
def chunkSize (r : ChunkedFileReader) (firstTime : Bool) :
    Except ReadError (Nat × ChunkedFileReader) :=
  let rd := fileRead r.file 4
  match unpackU32 rd.1 with
  | none => .error .eof
  | some size =>
    if firstTime = false ∧ size ≠ r.bytesPerChunk ∧
        rd.2.pos < r.size - r.bytesPerChunk then
      .error .inconsistentChunk
    else .ok (size, { r with file := rd.2 })

/-- Embedding of ChunkedFileReader.__init__ (chunked_reader.py lines 17-27):
read the first size prefix, remember it as the chunk size, record the
position after it as _offset and the file length as _size. -/
def ChunkedFileReader.init (data : Bytes) (startPos : Nat) :
    Except ReadError ChunkedFileReader :=
  let r0 : ChunkedFileReader :=
    { file := { data := data, pos := startPos }, bytesPerChunk := 0,
      chunkBytesLeft := 0, offset := 0, size := data.length }
  match chunkSize r0 true with
  | .error e => .error e
  | .ok (b, r1) =>
    .ok { r1 with bytesPerChunk := b,
                  chunkBytesLeft := b,
                  offset := r1.file.pos }

theorem unpackU32_length (bs : Bytes) (v : Nat) (h : unpackU32 bs = some v) :
    4 ≤ bs.length := by
  match bs with
  | a :: b :: c :: d :: tl => simp
  | [] => exact absurd h (by simp [unpackU32])
  | [a] => exact absurd h (by simp [unpackU32])
  | [a, b] => exact absurd h (by simp [unpackU32])
  | [a, b, c] => exact absurd h (by simp [unpackU32])

theorem chunkSize_ok_facts (r : ChunkedFileReader) (ft : Bool) (sz : Nat)
    (r2 : ChunkedFileReader) (h : chunkSize r ft = .ok (sz, r2)) :
    r2.file.data = r.file.data ∧ r2.file.pos = r.file.pos + 4 ∧
    r.file.pos + 4 ≤ r.file.data.length ∧
    r2.bytesPerChunk = r.bytesPerChunk ∧ r2.chunkBytesLeft = r.chunkBytesLeft ∧
    r2.offset = r.offset ∧ r2.size = r.size := by
  unfold chunkSize fileRead at h
  simp only at h
  cases hup : unpackU32 ((r.file.data.drop r.file.pos).take 4) with
  | none =>
    simp only [hup] at h
    exact Except.noConfusion h
  | some size =>
    simp only [hup] at h
    have hlen4 : ((r.file.data.drop r.file.pos).take 4).length = 4 := by
      have h1 := unpackU32_length _ _ hup
      have h2 : ((r.file.data.drop r.file.pos).take 4).length =
          min 4 (r.file.data.drop r.file.pos).length := List.length_take _ _
      omega
    have hbound : r.file.pos + 4 ≤ r.file.data.length := by
      have h2 : ((r.file.data.drop r.file.pos).take 4).length =
          min 4 (r.file.data.drop r.file.pos).length := List.length_take _ _
      have h3 : (r.file.data.drop r.file.pos).length =
          r.file.data.length - r.file.pos := List.length_drop _ _
      omega
    rw [hlen4] at h
    by_cases hcond : ft = false ∧ size ≠ r.bytesPerChunk ∧
        r.file.pos + 4 < r.size - r.bytesPerChunk
    · rw [if_pos hcond] at h
      exact absurd h (by simp)
    · rw [if_neg hcond] at h
      have hinj := Except.ok.inj h
      have hr2 := congrArg Prod.snd hinj
      simp only at hr2
      rw [← hr2]
      exact ⟨rfl, rfl, hbound, rfl, rfl, rfl, rfl⟩

/-- Embedding of the loop of ChunkedFileReader.read_iterator joined by
ChunkedFileReader.read (chunked_reader.py lines 49-63): while more bytes are
requested than remain in the current chunk, emit the remainder of the chunk,
swallow the next size prefix, and continue; then emit the requested tail and
decrement _chunk_bytes_left. -/
def readAux (r : ChunkedFileReader) (n : Nat) (acc : Bytes) :
    Except ReadError (Bytes × ChunkedFileReader) :=
  if h : r.chunkBytesLeft < n then
    match hcs : chunkSize
        { r with file := (fileRead r.file r.chunkBytesLeft).2 } false with
    | .error e => .error e
    | .ok (sz, r2) =>
      readAux { r2 with chunkBytesLeft := sz } (n - r.chunkBytesLeft)
        (acc ++ (fileRead r.file r.chunkBytesLeft).1)
  else
    .ok (acc ++ (fileRead r.file n).1,
      { r with file := (fileRead r.file n).2,
               chunkBytesLeft := r.chunkBytesLeft - n })
termination_by r.file.data.length - r.file.pos
decreasing_by
  obtain ⟨h1, h2, h3, h4, h5, h6, h7⟩ := chunkSize_ok_facts _ _ _ _ hcs
  simp only [fileRead, List.length_take, List.length_drop] at h1 h2 h3 ⊢
  rw [h1, h2]
  omega

/-- ChunkedFileReader.read: a single block assembled from read_iterator. -/
def ChunkedFileReader.read (r : ChunkedFileReader) (n : Nat) :
    Except ReadError (Bytes × ChunkedFileReader) :=
  readAux r n []

/-- Embedding of ChunkedFileReader.seek (chunked_reader.py lines 65-81): a
falsy (zero, standing also for None) position means the start offset; the
position must not precede the start offset; _chunk_bytes_left is recomputed
assuming all chunks share the same size. -/
def ChunkedFileReader.seek (r : ChunkedFileReader) (seekPos : Nat) :
    Except ReadError ChunkedFileReader :=
  let p := if seekPos = 0 then r.offset else seekPos
  if p < r.offset then .error .badSeek
  else .ok { r with
    chunkBytesLeft :=
      r.bytesPerChunk - ((p - r.offset) % (r.bytesPerChunk + 4)),
    file := { r.file with pos := p } }

/-- The raw bundle file from the start of the chunked portion: every chunk
preceded by its big-endian u32 size prefix. -/
def mkChunkedFile (B : Nat) (chunks : List Bytes) : Bytes :=
  (chunks.map (fun c => u32be B ++ c)).flatten

/-- The payload stream: the chunk contents without the envelope prefixes. -/
def payloadOf (chunks : List Bytes) : Bytes := chunks.flatten

/-- The reader state of a forward cursor that has consumed k full chunks and
j bytes of chunk k of a file whose chunked portion starts at position 0. -/
def rstate (data : Bytes) (B k j : Nat) : ChunkedFileReader :=
  { file := { data := data, pos := 4 + k * (B + 4) + j },
    bytesPerChunk := B, chunkBytesLeft := B - j, offset := 4,
    size := data.length }

theorem u32be_length (n : Nat) : (u32be n).length = 4 := rfl

theorem unpackU32_u32be (n : Nat) (hn : n < 2 ^ 32) (rest : Bytes) :
    unpackU32 (u32be n ++ rest) = some n := by
  show some ((((n / 2 ^ 24 % 256) * 256 + n / 2 ^ 16 % 256) * 256 +
    n / 2 ^ 8 % 256) * 256 + n % 256) = some n
  congr 1
  omega

theorem mkChunkedFile_nil (B : Nat) : mkChunkedFile B [] = [] := rfl

theorem mkChunkedFile_cons (B : Nat) (c : Bytes) (cs : List Bytes) :
    mkChunkedFile B (c :: cs) = (u32be B ++ c) ++ mkChunkedFile B cs := by
  simp [mkChunkedFile]

theorem payloadOf_nil : payloadOf [] = [] := rfl

theorem payloadOf_cons (c : Bytes) (cs : List Bytes) :
    payloadOf (c :: cs) = c ++ payloadOf cs := by
  simp [payloadOf]

theorem payloadOf_length (B : Nat) (cs : List Bytes)
    (hc : ∀ c ∈ cs, c.length = B) : (payloadOf cs).length = cs.length * B := by
  induction cs with
  | nil => simp [payloadOf]
  | cons c cs2 ih =>
    rw [payloadOf_cons, List.length_append, hc c (List.mem_cons_self _ _),
      ih (fun c2 h2 => hc c2 (List.mem_cons_of_mem _ h2))]
    simp [Nat.succ_mul]
    omega

theorem mkChunkedFile_drop (B : Nat) (cs : List Bytes) (k : Nat)
    (hc : ∀ c ∈ cs, c.length = B) (hk : k ≤ cs.length) :
    (mkChunkedFile B cs).drop (k * (B + 4)) = mkChunkedFile B (cs.drop k) := by
  induction k generalizing cs with
  | zero => simp
  | succ k ih =>
    cases cs with
    | nil => simp at hk
    | cons c cs2 =>
      have hclen : c.length = B := hc c (List.mem_cons_self _ _)
      have hblk : (u32be B ++ c).length = B + 4 := by
        rw [List.length_append, u32be_length, hclen]
        omega
      rw [mkChunkedFile_cons, List.drop_append_eq_append_drop]
      have h1 : (u32be B ++ c).drop ((k + 1) * (B + 4)) = [] := by
        apply List.drop_eq_nil_of_le
        rw [hblk, Nat.succ_mul]
        omega
      have h2 : (k + 1) * (B + 4) - (u32be B ++ c).length = k * (B + 4) := by
        rw [hblk, Nat.succ_mul]
        omega
      rw [h1, h2, List.nil_append]
      rw [ih cs2 (fun c2 h2 => hc c2 (List.mem_cons_of_mem _ h2)) (by simpa using hk)]
      simp

theorem payloadOf_drop (B : Nat) (cs : List Bytes) (k : Nat)
    (hc : ∀ c ∈ cs, c.length = B) (hk : k ≤ cs.length) :
    (payloadOf cs).drop (k * B) = payloadOf (cs.drop k) := by
  induction k generalizing cs with
  | zero => simp
  | succ k ih =>
    cases cs with
    | nil => simp at hk
    | cons c cs2 =>
      have hclen : c.length = B := hc c (List.mem_cons_self _ _)
      rw [payloadOf_cons, List.drop_append_eq_append_drop]
      have h1 : c.drop ((k + 1) * B) = [] := by
        apply List.drop_eq_nil_of_le
        rw [hclen, Nat.succ_mul]
        omega
      have h2 : (k + 1) * B - c.length = k * B := by
        rw [hclen, Nat.succ_mul]
        omega
      rw [h1, h2, List.nil_append]
      rw [ih cs2 (fun c2 h2 => hc c2 (List.mem_cons_of_mem _ h2)) (by simpa using hk)]
      simp

theorem chunk_getD_length (B : Nat) (cs : List Bytes) (k : Nat)
    (hc : ∀ c ∈ cs, c.length = B) (hk : k < cs.length) :
    (cs.getD k []).length = B := by
  rw [List.getD_eq_getElem cs [] hk]
  exact hc _ (List.getElem_mem hk)

theorem cs_drop_cons (cs : List Bytes) (k : Nat) (hk : k < cs.length) :
    cs.drop k = cs.getD k [] :: cs.drop (k + 1) := by
  rw [List.getD_eq_getElem cs [] hk]
  exact List.drop_eq_getElem_cons hk

/-- The raw file seen from the forward cursor position (k, j): the rest of
chunk k followed by the remaining prefixed chunks. -/
theorem data_drop_state (B : Nat) (cs : List Bytes) (k j : Nat)
    (hc : ∀ c ∈ cs, c.length = B) (hk : k < cs.length) (hj : j ≤ B) :
    (mkChunkedFile B cs).drop (4 + k * (B + 4) + j) =
      (cs.getD k []).drop j ++ mkChunkedFile B (cs.drop (k + 1)) := by
  have h0 : (mkChunkedFile B cs).drop (4 + k * (B + 4) + j) =
      ((mkChunkedFile B cs).drop (k * (B + 4))).drop (4 + j) := by
    rw [List.drop_drop]
    congr 1
    omega
  rw [h0, mkChunkedFile_drop B cs k hc (Nat.le_of_lt hk), cs_drop_cons cs k hk,
    mkChunkedFile_cons, List.append_assoc, List.drop_append_eq_append_drop]
  have h1 : (u32be B).drop (4 + j) = [] := by
    apply List.drop_eq_nil_of_le
    rw [u32be_length]
    omega
  have h2 : 4 + j - (u32be B).length = j := by
    rw [u32be_length]
    omega
  rw [h1, h2, List.nil_append, List.drop_append_eq_append_drop]
  have h3 : j - (cs.getD k []).length = 0 := by
    rw [chunk_getD_length B cs k hc hk]
    omega
  rw [h3]
  simp

/-- The payload stream seen from payload index k * B + j. -/
theorem payload_drop_state (B : Nat) (cs : List Bytes) (k j : Nat)
    (hc : ∀ c ∈ cs, c.length = B) (hk : k < cs.length) (hj : j ≤ B) :
    (payloadOf cs).drop (k * B + j) =
      (cs.getD k []).drop j ++ payloadOf (cs.drop (k + 1)) := by
  have h0 : (payloadOf cs).drop (k * B + j) =
      ((payloadOf cs).drop (k * B)).drop j := by
    rw [List.drop_drop]
  rw [h0, payloadOf_drop B cs k hc (Nat.le_of_lt hk), cs_drop_cons cs k hk,
    payloadOf_cons, List.drop_append_eq_append_drop]
  have h3 : j - (cs.getD k []).length = 0 := by
    rw [chunk_getD_length B cs k hc hk]
    omega
  rw [h3]
  simp

theorem mkChunkedFile_length (B : Nat) (cs : List Bytes)
    (hc : ∀ c ∈ cs, c.length = B) :
    (mkChunkedFile B cs).length = cs.length * (B + 4) := by
  induction cs with
  | nil => simp [mkChunkedFile]
  | cons c cs2 ih =>
    rw [mkChunkedFile_cons, List.length_append, List.length_append,
      u32be_length, hc c (List.mem_cons_self _ _),
      ih (fun c2 h2 => hc c2 (List.mem_cons_of_mem _ h2))]
    simp [Nat.succ_mul]
    omega

theorem chunkSize_eval_ok (r : ChunkedFileReader) (tail : Bytes)
    (hB32 : r.bytesPerChunk < 2 ^ 32)
    (hdrop : r.file.data.drop r.file.pos = u32be r.bytesPerChunk ++ tail) :
    chunkSize r false =
      .ok (r.bytesPerChunk,
        { r with file := { data := r.file.data, pos := r.file.pos + 4 } }) := by
  unfold chunkSize fileRead
  simp only
  rw [hdrop]
  have htake : (u32be r.bytesPerChunk ++ tail).take 4 = u32be r.bytesPerChunk := by
    conv_lhs =>
      rw [show (4 : Nat) = (u32be r.bytesPerChunk).length from
        (u32be_length _).symm]
    exact List.take_left _ _
  rw [htake]
  have hunpack : unpackU32 (u32be r.bytesPerChunk) = some r.bytesPerChunk := by
    have h := unpackU32_u32be r.bytesPerChunk hB32 []
    simpa using h
  rw [hunpack]
  simp only [u32be_length]
  rw [if_neg (by simp)]

theorem chunkSize_eval_eof (r : ChunkedFileReader)
    (hdrop : r.file.data.drop r.file.pos = []) :
    chunkSize r false = .error .eof := by
  unfold chunkSize fileRead
  simp only
  rw [hdrop]
  rfl

theorem readAux_step_direct (B : Nat) (cs : List Bytes) (k j n : Nat)
    (acc : Bytes) (hc : ∀ c ∈ cs, c.length = B) (hk : k < cs.length)
    (hj : j ≤ B) (hn : n ≤ B - j) :
    readAux (rstate (mkChunkedFile B cs) B k j) n acc =
      .ok (acc ++ ((payloadOf cs).drop (k * B + j)).take n,
        rstate (mkChunkedFile B cs) B k (j + n)) := by
  have hck := chunk_getD_length B cs k hc hk
  have hdrop := data_drop_state B cs k j hc hk hj
  have hpay := payload_drop_state B cs k j hc hk hj
  have hlendrop : ((cs.getD k []).drop j).length = B - j := by
    rw [List.length_drop, hck]
  have hbs : ((mkChunkedFile B cs).drop (4 + k * (B + 4) + j)).take n =
      ((cs.getD k []).drop j).take n := by
    rw [hdrop, List.take_append_of_le_length (by omega)]
  have hslice : ((payloadOf cs).drop (k * B + j)).take n =
      ((cs.getD k []).drop j).take n := by
    rw [hpay, List.take_append_of_le_length (by omega)]
  have hlen : (((cs.getD k []).drop j).take n).length = n := by
    rw [List.length_take]
    omega
  rw [readAux, dif_neg (by simp [rstate]; omega)]
  simp only [rstate, fileRead, hbs, hslice, hlen]
  have e1 : 4 + k * (B + 4) + j + n = 4 + k * (B + 4) + (j + n) := by omega
  have e2 : B - j - n = B - (j + n) := by omega
  rw [e1, e2]

theorem readAux_step_loop (B : Nat) (cs : List Bytes) (k j n : Nat)
    (acc : Bytes) (hB32 : B < 2 ^ 32) (hc : ∀ c ∈ cs, c.length = B)
    (hk1 : k + 1 < cs.length) (hj : j ≤ B) (hlt : B - j < n) :
    readAux (rstate (mkChunkedFile B cs) B k j) n acc =
      readAux (rstate (mkChunkedFile B cs) B (k + 1) 0) (n - (B - j))
        (acc ++ (cs.getD k []).drop j) := by
  have hk : k < cs.length := by omega
  have hck := chunk_getD_length B cs k hc hk
  have hdrop := data_drop_state B cs k j hc hk hj
  have hlendrop : ((cs.getD k []).drop j).length = B - j := by
    rw [List.length_drop, hck]
  have hbs : ((mkChunkedFile B cs).drop (4 + k * (B + 4) + j)).take (B - j) =
      (cs.getD k []).drop j := by
    rw [hdrop, List.take_append_of_le_length (by omega)]
    exact List.take_of_length_le (by omega)
  have hpos2 : 4 + k * (B + 4) + j + (B - j) = (k + 1) * (B + 4) := by
    rw [Nat.succ_mul]
    omega
  have hdrop2 : (mkChunkedFile B cs).drop ((k + 1) * (B + 4)) =
      u32be B ++ ((cs.getD (k + 1) []) ++ mkChunkedFile B (cs.drop (k + 2))) := by
    rw [mkChunkedFile_drop B cs (k + 1) hc (by omega), cs_drop_cons cs (k + 1) hk1,
      mkChunkedFile_cons, List.append_assoc]
  rw [readAux, dif_pos (by simp [rstate]; omega)]
  have hstate : chunkSize
      { rstate (mkChunkedFile B cs) B k j with
        file := (fileRead (rstate (mkChunkedFile B cs) B k j).file
          (rstate (mkChunkedFile B cs) B k j).chunkBytesLeft).2 } false =
      .ok (B,
        { rstate (mkChunkedFile B cs) B k j with
          file := { data := mkChunkedFile B cs, pos := (k + 1) * (B + 4) + 4 } }) := by
    have h := chunkSize_eval_ok
      { rstate (mkChunkedFile B cs) B k j with
        file := { data := mkChunkedFile B cs, pos := (k + 1) * (B + 4) } }
      ((cs.getD (k + 1) []) ++ mkChunkedFile B (cs.drop (k + 2)))
      (by simpa [rstate] using hB32) (by simpa [rstate] using hdrop2)
    have heq : ({ rstate (mkChunkedFile B cs) B k j with
        file := (fileRead (rstate (mkChunkedFile B cs) B k j).file
          (rstate (mkChunkedFile B cs) B k j).chunkBytesLeft).2 } :
        ChunkedFileReader) =
        { rstate (mkChunkedFile B cs) B k j with
          file := { data := mkChunkedFile B cs, pos := (k + 1) * (B + 4) } } := by
      simp only [rstate, fileRead, hbs, hlendrop]
      rw [hpos2]
    rw [heq, h]
    simp [rstate]
  split
  · rename_i e heq
    rw [hstate] at heq
    exact Except.noConfusion heq
  · rename_i sz r2 heq
    rw [hstate] at heq
    injection heq with hp
    injection hp with hsz hr2
    rw [← hr2, ← hsz]
    have hst2 : ({ { rstate (mkChunkedFile B cs) B k j with
        file := { data := mkChunkedFile B cs, pos := (k + 1) * (B + 4) + 4 } }
        with chunkBytesLeft := B } : ChunkedFileReader) =
        rstate (mkChunkedFile B cs) B (k + 1) 0 := by
      simp only [rstate]
      have e3 : (k + 1) * (B + 4) + 4 = 4 + (k + 1) * (B + 4) + 0 := by omega
      rw [e3]
      rfl
    rw [hst2]
    have hleft : (rstate (mkChunkedFile B cs) B k j).chunkBytesLeft = B - j := rfl
    have hrd : (fileRead (rstate (mkChunkedFile B cs) B k j).file (B - j)).1 =
        (cs.getD k []).drop j := by
      simp only [rstate, fileRead]
      exact hbs
    rw [hleft, hrd]

theorem readAux_step_eof (B : Nat) (cs : List Bytes) (k j n : Nat)
    (acc : Bytes) (hc : ∀ c ∈ cs, c.length = B)
    (hk1 : k + 1 = cs.length) (hj : j ≤ B) (hlt : B - j < n) :
    readAux (rstate (mkChunkedFile B cs) B k j) n acc = .error .eof := by
  have hk : k < cs.length := by omega
  have hck := chunk_getD_length B cs k hc hk
  have hdrop := data_drop_state B cs k j hc hk hj
  have hlendrop : ((cs.getD k []).drop j).length = B - j := by
    rw [List.length_drop, hck]
  have hbs : ((mkChunkedFile B cs).drop (4 + k * (B + 4) + j)).take (B - j) =
      (cs.getD k []).drop j := by
    rw [hdrop, List.take_append_of_le_length (by omega)]
    exact List.take_of_length_le (by omega)
  have hlen : (mkChunkedFile B cs).length = cs.length * (B + 4) :=
    mkChunkedFile_length B cs hc
  have hdrop2 : (mkChunkedFile B cs).drop ((k + 1) * (B + 4)) = [] := by
    apply List.drop_eq_nil_of_le
    rw [hlen, hk1]
  rw [readAux, dif_pos (by simp [rstate]; omega)]
  have hstate : chunkSize
      { rstate (mkChunkedFile B cs) B k j with
        file := (fileRead (rstate (mkChunkedFile B cs) B k j).file
          (rstate (mkChunkedFile B cs) B k j).chunkBytesLeft).2 } false =
      .error .eof := by
    apply chunkSize_eval_eof
    simp only [rstate, fileRead, hbs, hlendrop]
    have hpos2 : 4 + k * (B + 4) + j + (B - j) = (k + 1) * (B + 4) := by
      rw [Nat.succ_mul]
      omega
    rw [hpos2]
    exact hdrop2
  split
  · rename_i e heq
    rw [hstate] at heq
    have := Except.error.inj heq
    rw [← this]
  · rename_i sz r2 heq
    rw [hstate] at heq
    exact Except.noConfusion heq

theorem readAux_ok (B : Nat) (hB : 0 < B) (hB32 : B < 2 ^ 32) :
    ∀ (m : Nat) (cs : List Bytes), (∀ c ∈ cs, c.length = B) →
    ∀ (k j n : Nat) (acc : Bytes), cs.length = k + m → 1 ≤ m → j ≤ B →
    n ≤ m * B - j →
    ∃ k2 j2, k2 < cs.length ∧ j2 ≤ B ∧ k2 * B + j2 = k * B + j + n ∧
      readAux (rstate (mkChunkedFile B cs) B k j) n acc =
        .ok (acc ++ ((payloadOf cs).drop (k * B + j)).take n,
          rstate (mkChunkedFile B cs) B k2 j2) := by
  intro m
  induction m with
  | zero =>
    intro cs hc k j n acc hlen hm
    exact absurd hm (by omega)
  | succ m ih =>
    intro cs hc k j n acc hlen hm hj hn
    have hk : k < cs.length := by omega
    by_cases hcase : n ≤ B - j
    · refine ⟨k, j + n, hk, by omega, by omega, ?_⟩
      exact readAux_step_direct B cs k j n acc hc hk hj hcase
    · have hlt : B - j < n := by omega
      have hmul : (m + 1) * B = m * B + B := Nat.succ_mul m B
      have hmpos : 1 ≤ m := by
        rcases Nat.eq_zero_or_pos m with h0 | h1
        · exfalso
          subst h0
          simp at hn
          omega
        · exact h1
      have hk1 : k + 1 < cs.length := by omega
      have hstep := readAux_step_loop B cs k j n acc hB32 hc hk1 hj hlt
      have hn2 : n - (B - j) ≤ m * B - 0 := by
        rw [hmul] at hn
        omega
      obtain ⟨k2, j2, hk2, hj2, hsum, hres⟩ :=
        ih cs hc (k + 1) 0 (n - (B - j)) (acc ++ (cs.getD k []).drop j)
          (by omega) hmpos (by omega) hn2
      refine ⟨k2, j2, hk2, hj2, ?_, ?_⟩
      · have hmul2 : (k + 1) * B = k * B + B := Nat.succ_mul k B
        omega
      · rw [hstep, hres]
        simp only [Except.ok.injEq, Prod.mk.injEq]
        refine ⟨?_, trivial⟩
        have hpay := payload_drop_state B cs k j hc hk hj
        have hpay2 : (payloadOf cs).drop ((k + 1) * B + 0) =
            payloadOf (cs.drop (k + 1)) := by
          rw [Nat.add_zero]
          exact payloadOf_drop B cs (k + 1) hc (Nat.le_of_lt hk1)
        have hck := chunk_getD_length B cs k hc hk
        have hlendrop : ((cs.getD k []).drop j).length = B - j := by
          rw [List.length_drop, hck]
        have htk : ((cs.getD k []).drop j).take n = (cs.getD k []).drop j :=
          List.take_of_length_le (by omega)
        rw [hpay2, hpay, List.take_append_eq_append_take, htk, hlendrop,
          List.append_assoc]

theorem readAux_eofAll (B : Nat) (hB : 0 < B) (hB32 : B < 2 ^ 32) :
    ∀ (m : Nat) (cs : List Bytes), (∀ c ∈ cs, c.length = B) →
    ∀ (k j n : Nat) (acc : Bytes), cs.length = k + m → 1 ≤ m → j ≤ B →
    m * B - j < n →
    readAux (rstate (mkChunkedFile B cs) B k j) n acc = .error .eof := by
  intro m
  induction m with
  | zero =>
    intro cs hc k j n acc hlen hm
    exact absurd hm (by omega)
  | succ m ih =>
    intro cs hc k j n acc hlen hm hj hn
    have hmul : (m + 1) * B = m * B + B := Nat.succ_mul m B
    have hlt : B - j < n := by omega
    by_cases hm0 : m = 0
    · subst hm0
      exact readAux_step_eof B cs k j n acc hc (by omega) hj hlt
    · have hmpos : 1 ≤ m := by omega
      have hk1 : k + 1 < cs.length := by omega
      rw [readAux_step_loop B cs k j n acc hB32 hc hk1 hj hlt]
      exact ih cs hc (k + 1) 0 (n - (B - j)) (acc ++ (cs.getD k []).drop j)
        (by omega) hmpos (by omega) (by omega)

/-- C6: for every request n not exceeding the payload bytes remaining after
the forward cursor (that has consumed k full chunks and j bytes of chunk k),
ChunkedFileReader.read returns exactly n payload bytes, equal to the
corresponding slice of the flat payload stream (prefixes swallowed
transparently); a request past the end of the payload fails with eof. -/
theorem chunked_reader_read_exact (B : Nat) (cs : List Bytes) (k j n : Nat)
    (hB : 0 < B) (hB32 : B < 2 ^ 32) (hc : ∀ c ∈ cs, c.length = B)
    (hk : k < cs.length) (hj : j ≤ B) :
    (n ≤ (cs.length - k) * B - j →
      ∃ r2, (rstate (mkChunkedFile B cs) B k j).read n =
        .ok (((payloadOf cs).drop (k * B + j)).take n, r2) ∧
        (((payloadOf cs).drop (k * B + j)).take n).length = n) ∧
    ((cs.length - k) * B - j < n →
      (rstate (mkChunkedFile B cs) B k j).read n = .error .eof) := by
  have hm : cs.length = k + (cs.length - k) := by omega
  constructor
  · intro hn
    obtain ⟨k2, j2, hk2, hj2, hsum, hres⟩ :=
      readAux_ok B hB hB32 (cs.length - k) cs hc k j n [] hm (by omega) hj hn
    refine ⟨rstate (mkChunkedFile B cs) B k2 j2, ?_, ?_⟩
    · show readAux (rstate (mkChunkedFile B cs) B k j) n [] = _
      rw [hres]
      simp
    · have hlenp : (payloadOf cs).length = cs.length * B := payloadOf_length B cs hc
      rw [List.length_take, List.length_drop, hlenp]
      have hd : (cs.length - k) * B = cs.length * B - k * B := Nat.sub_mul _ _ _
      have hkb : k * B ≤ cs.length * B := Nat.mul_le_mul_right B (Nat.le_of_lt hk)
      omega
  · intro hn
    exact readAux_eofAll B hB hB32 (cs.length - k) cs hc k j n [] hm (by omega) hj hn

/-- Witness for C6: reading 3 bytes across the chunk boundary of a two-chunk
file returns exactly the first 3 payload bytes; reading 5 of the 4 payload
bytes fails with eof. -/
theorem chunked_reader_read_exact_witness :
    (∃ r2, (rstate (mkChunkedFile 2 [[10, 11], [12, 13]]) 2 0 0).read 3 =
      .ok ([10, 11, 12], r2)) ∧
    (rstate (mkChunkedFile 2 [[10, 11], [12, 13]]) 2 0 0).read 5 =
      .error .eof := by
  constructor
  · obtain ⟨r2, hok, hlen⟩ :=
      (chunked_reader_read_exact 2 [[10, 11], [12, 13]] 0 0 3 (by decide)
        (by decide) (by decide) (by decide) (by decide)).1 (by decide)
    exact ⟨r2, hok⟩
  · exact (chunked_reader_read_exact 2 [[10, 11], [12, 13]] 0 0 5 (by decide)
      (by decide) (by decide) (by decide) (by decide)).2 (by decide)

/-- C5: seeking to any payload position previously observed by the forward
cursor (position 4 + k * (B + 4) + j, after k full chunks and j bytes of
chunk k) from any reader over the same equal-chunk file reproduces exactly
the forward cursor state, so a subsequent read of n bytes returns the same
byte sequence the single forward pass produces from that position: the
corresponding slice of the payload stream. -/
theorem chunked_reader_seek_replay (B : Nat) (cs : List Bytes) (k j n : Nat)
    (r0 : ChunkedFileReader)
    (hB : 0 < B) (hB32 : B < 2 ^ 32) (hc : ∀ c ∈ cs, c.length = B)
    (hk : k < cs.length) (hj : j ≤ B)
    (hr0d : r0.file.data = mkChunkedFile B cs) (hr0b : r0.bytesPerChunk = B)
    (hr0o : r0.offset = 4) (hr0s : r0.size = (mkChunkedFile B cs).length)
    (hn : n ≤ (cs.length - k) * B - j) :
    r0.seek (4 + k * (B + 4) + j) =
      .ok (rstate (mkChunkedFile B cs) B k j) ∧
    ∃ r2, (rstate (mkChunkedFile B cs) B k j).read n =
      .ok (((payloadOf cs).drop (k * B + j)).take n, r2) := by
  constructor
  · rcases r0 with ⟨⟨d0, p0⟩, b0, c0, o0, s0⟩
    simp only at hr0d hr0b hr0o hr0s
    subst hr0d
    subst hr0s
    simp only [ChunkedFileReader.seek]
    rw [hr0b, hr0o]
    rw [if_neg (show ¬(4 + k * (B + 4) + j = 0) by omega)]
    rw [if_neg (show ¬(4 + k * (B + 4) + j < 4) by omega)]
    have hmod : (4 + k * (B + 4) + j - 4) % (B + 4) = j := by
      have h1 : 4 + k * (B + 4) + j - 4 = k * (B + 4) + j := by omega
      rw [h1, Nat.mul_comm k (B + 4), Nat.mul_add_mod]
      exact Nat.mod_eq_of_lt (by omega)
    rw [hmod]
    rfl
  · have hm : cs.length = k + (cs.length - k) := by omega
    obtain ⟨k2, j2, hk2, hj2, hsum, hres⟩ :=
      readAux_ok B hB hB32 (cs.length - k) cs hc k j n [] hm (by omega) hj hn
    refine ⟨rstate (mkChunkedFile B cs) B k2 j2, ?_⟩
    show readAux (rstate (mkChunkedFile B cs) B k j) n [] = _
    rw [hres]
    simp

/-- Witness for C5: from a cursor at the second chunk, seeking back to the
previously observed position after 1 payload byte and reading 2 bytes yields
the same bytes the forward pass saw there. -/
theorem chunked_reader_seek_replay_witness :
    (rstate (mkChunkedFile 2 [[10, 11], [12, 13]]) 2 1 0).seek 5 =
      .ok (rstate (mkChunkedFile 2 [[10, 11], [12, 13]]) 2 0 1) ∧
    ∃ r2, (rstate (mkChunkedFile 2 [[10, 11], [12, 13]]) 2 0 1).read 2 =
      .ok ([11, 12], r2) := by
  have h := chunked_reader_seek_replay 2 [[10, 11], [12, 13]] 0 1 2
    (rstate (mkChunkedFile 2 [[10, 11], [12, 13]]) 2 1 0)
    (by decide) (by decide) (by decide) (by decide) (by decide)
    (by rfl) (by rfl) (by rfl) (by rfl) (by decide)
  exact h

/-! ## hgutil.branching_info and from_disk.store_data -/

/-- A branch head as branching_info consults it through the Mercurial API:
revision number, 20-byte node id, and whether it closes its branch. -/
structure HeadCtx where
  rev : Nat
  node : Bytes
  closes : Bool
deriving DecidableEq, Repr

/-- The slice of the repository state branching_info and store_data read
through the Mercurial library (an external collaborator): repo.branchmap()
as an ordered branch-to-heads mapping, bookmarks.listbookmarks(repo) as an
ordered bookmark-to-hex-node mapping, and repo[node].branch(). -/
structure RepoModel where
  branchmap : List (Bytes × List HeadCtx)
  bookmarks : List (Bytes × Bytes)
  nodeBranch : Bytes → Bytes

/-- Lexicographic comparison of byte strings (Python bytes ordering). -/
def lexLe : Bytes → Bytes → Bool
  | [], _ => true
  | _ :: _, [] => false
  | a :: as, b :: bs => if a < b then true else if a = b then lexLe as bs else false

def insertByNode (h : HeadCtx) : List HeadCtx → List HeadCtx
  | [] => [h]
  | h2 :: rest =>
    if lexLe h.node h2.node then h :: h2 :: rest else h2 :: insertByNode h rest

/-- sorted(heads): stable ascending sort by node id. -/
def sortByNode : List HeadCtx → List HeadCtx
  | [] => []
  | h :: rest => insertByNode h (sortByNode rest)

/-- dict get on an association list. -/
def bGet (m : List (Bytes × Bytes)) (k : Bytes) : Option Bytes :=
  match m with
  | [] => none
  | (k2, v) :: rest => if k2 = k then some v else bGet rest k

/-- dict set on an association list. -/
def bSet (m : List (Bytes × Bytes)) (k v : Bytes) : List (Bytes × Bytes) :=
  match m with
  | [] => [(k, v)]
  | (k2, v2) :: rest =>
    if k2 = k then (k2, v) :: rest else (k2, v2) :: bSet rest k v

/-- defaultdict(list) get. -/
def alGet (m : List (Bytes × List Bytes)) (k : Bytes) : Option (List Bytes) :=
  match m with
  | [] => none
  | (k2, v) :: rest => if k2 = k then some v else alGet rest k

/-- defaultdict(list)[k].append(v). -/
def alAppend (m : List (Bytes × List Bytes)) (k : Bytes) (v : Bytes) :
    List (Bytes × List Bytes) :=
  match m with
  | [] => [(k, [v])]
  | (k2, l) :: rest =>
    if k2 = k then (k2, l ++ [v]) :: rest else (k2, l) :: alAppend rest k v

/-- Python truthiness of a dict.get result: None and empty bytes are falsy
(the `if not branch_tips.get(branch_name)` check in branching_info). -/
def pyFalsy : Option Bytes → Bool
  | none => true
  | some v => v.isEmpty

/-- State accumulated by the branchmap loop of branching_info. -/
structure BranchAcc where
  tips : List (Bytes × Bytes)
  openHeads : List (Bytes × List Bytes)
  closedHeads : List (Bytes × List Bytes)

/-- Body of the inner head loop of hgutil.branching_info (lines 64-78):
skip ignored revisions, file closed heads, and for open heads set the branch
tip on first sight and append to the open head list. -/
def headStep (ignored : Finset Nat) (bn : Bytes) (acc : BranchAcc)
    (head : HeadCtx) : BranchAcc :=
  if head.rev ∈ ignored then acc
  else if head.closes then
    { acc with closedHeads := alAppend acc.closedHeads bn head.node }
  else
    { acc with
      tips := if pyFalsy (bGet acc.tips bn) then bSet acc.tips bn head.node
              else acc.tips,
      openHeads := alAppend acc.openHeads bn head.node }

def branchStep (ignored : Finset Nat) (acc : BranchAcc)
    (entry : Bytes × List HeadCtx) : BranchAcc :=
  (sortByNode entry.2).foldl (headStep ignored entry.1) acc

def atBytes : Bytes := [64]

def bookmarksAtBytes : Bytes := [98, 111, 111, 107, 109, 97, 114, 107, 115, 47, 64]

def branchTipDefaultBytes : Bytes :=
  [98, 114, 97, 110, 99, 104, 45, 116, 105, 112, 47,
   100, 101, 102, 97, 117, 108, 116]

def hexVal (c : Nat) : Nat :=
  if 48 ≤ c ∧ c ≤ 57 then c - 48
  else if 97 ≤ c ∧ c ≤ 102 then c - 87
  else if 65 ≤ c ∧ c ≤ 70 then c - 55
  else 0

/-- bytes.fromhex on an even-length hex string (used for bookmark targets). -/
def fromHex : Bytes → Bytes
  | a :: b :: rest => (hexVal a * 16 + hexVal b) :: fromHex rest
  | _ => []

/-- Result record of hgutil.branching_info. -/
structure BranchingInfo where
  tips : List (Bytes × Bytes)
  bookmarks : List (Bytes × Bytes)
  openHeads : List (Bytes × List Bytes)
  closedHeads : List (Bytes × List Bytes)
  defaultBranchAlias : Option Bytes

/-- Shallow embedding of hgutil.branching_info (hgutil.py lines 50-116):
walk the branchmap accumulating tips and open and closed heads per branch
(heads sorted by node id, ignored revisions skipped), resolve the HEAD alias
(the @ bookmark when its branch has a tip, else branch-tip/default when the
default branch has a tip), drop single-open-head branches from open_heads,
and hex-decode the bookmark targets. -/
def branching_info (repo : RepoModel) (ignored : Finset Nat) : BranchingInfo :=
  let acc := repo.branchmap.foldl (branchStep ignored) ⟨[], [], []⟩
  let at_bookmark := bGet repo.bookmarks atBytes
  let alias1 : Option Bytes :=
    match at_bookmark with
    | some ab =>
      if (bGet acc.tips (repo.nodeBranch ab)).isSome then some bookmarksAtBytes
      else none
    | none => none
  let alias2 : Option Bytes :=
    match alias1 with
    | some a => some a
    | none =>
      if (bGet acc.tips defaultBytes).isSome then some branchTipDefaultBytes
      else none
  { tips := acc.tips,
    bookmarks := repo.bookmarks.map (fun e => (e.1, fromHex e.2)),
    openHeads := acc.openHeads.filter (fun e => e.2.length ≠ 1),
    closedHeads := acc.closedHeads,
    defaultBranchAlias := alias2 }

inductive SnapTargetType where
  | revision
  | release
  | alias
deriving DecidableEq, Repr

structure SnapBranch where
  target : Bytes
  targetType : SnapTargetType
deriving DecidableEq, Repr

/-- snapshot_branches[k] = v (dict write, last write wins). -/
def snapUpd (m : Bytes → Option SnapBranch) (k : Bytes) (v : SnapBranch) :
    Bytes → Option SnapBranch :=
  fun k2 => if k2 = k then some v else m k2

def tipBytes : Bytes := [116, 105, 112]

def tagsPrefix : Bytes := [116, 97, 103, 115, 47]

def tipPrefix : Bytes :=
  [98, 114, 97, 110, 99, 104, 45, 116, 105, 112, 47]

def bmPrefix : Bytes := [98, 111, 111, 107, 109, 97, 114, 107, 115, 47]

def bhPrefix : Bytes :=
  [98, 114, 97, 110, 99, 104, 45, 104, 101, 97, 100, 115, 47]

def bchPrefix : Bytes :=
  [98, 114, 97, 110, 99, 104, 45, 99, 108, 111, 115, 101, 100, 45,
   104, 101, 97, 100, 115, 47]

def headNameBytes : Bytes := [72, 69, 65, 68]

/-- Decimal ASCII rendering of a natural number (the %d formatting). -/
def decToBytes (n : Nat) : Bytes :=
  if n < 10 then [48 + n] else decToBytes (n / 10) ++ [48 + n % 10]
termination_by n
decreasing_by
  exact Nat.div_lt_self (by omega) (by omega)

/-- The snapshot branch name formats of store_data. -/
def tagKey (t : Bytes) : Bytes := tagsPrefix ++ t

def tipKey (b : Bytes) : Bytes := tipPrefix ++ b

def bmKey (b : Bytes) : Bytes := bmPrefix ++ b

def bhKey (b : Bytes) (i : Nat) : Bytes := bhPrefix ++ b ++ 47 :: decToBytes i

def bchKey (b : Bytes) (i : Nat) : Bytes := bchPrefix ++ b ++ 47 :: decToBytes i

/-- The tags loop of store_data (lines 375-386): skip the synthetic tip tag
and tags already saved by a previous run, register the rest as releases. -/
def snapAddTags (tags : List (Bytes × Bytes)) (savedTags : List Bytes)
    (nodeToRev : Bytes → Bytes) (relId : Bytes → Bytes → Bytes)
    (s : Bytes → Option SnapBranch) : Bytes → Option SnapBranch :=
  tags.foldl (fun s tv =>
    if tv.1 = tipBytes then s
    else if tv.2 ∈ savedTags then s
    else snapUpd s (tagKey tv.1) ⟨relId tv.1 (nodeToRev tv.2), .release⟩) s

/-- The branch tips loop of store_data (lines 388-393). -/
def snapAddTips (tips : List (Bytes × Bytes)) (nodeToRev : Bytes → Bytes)
    (s : Bytes → Option SnapBranch) : Bytes → Option SnapBranch :=
  tips.foldl (fun s e => snapUpd s (tipKey e.1) ⟨nodeToRev e.2, .revision⟩) s

/-- The bookmarks loop of store_data (lines 395-400). -/
def snapAddBookmarks (bms : List (Bytes × Bytes)) (nodeToRev : Bytes → Bytes)
    (s : Bytes → Option SnapBranch) : Bytes → Option SnapBranch :=
  bms.foldl (fun s e => snapUpd s (bmKey e.1) ⟨nodeToRev e.2, .revision⟩) s

/-- The open heads loop of store_data (lines 402-408): enumerate each multi
head branch. -/
def snapAddOpenHeads (ohs : List (Bytes × List Bytes))
    (nodeToRev : Bytes → Bytes) (s : Bytes → Option SnapBranch) :
    Bytes → Option SnapBranch :=
  ohs.foldl (fun s e =>
    (e.2.enum).foldl (fun s2 ih =>
      snapUpd s2 (bhKey e.1 ih.1) ⟨nodeToRev ih.2, .revision⟩) s) s

/-- The closed heads loop of store_data (lines 410-416). -/
def snapAddClosedHeads (chs : List (Bytes × List Bytes))
    (nodeToRev : Bytes → Bytes) (s : Bytes → Option SnapBranch) :
    Bytes → Option SnapBranch :=
  chs.foldl (fun s e =>
    (e.2.enum).foldl (fun s2 ih =>
      snapUpd s2 (bchKey e.1 ih.1) ⟨nodeToRev ih.2, .revision⟩) s) s

/-- Shallow embedding of the snapshot branch construction of
HgLoaderFromDisk.store_data (from_disk.py lines 370-425): tags (skipping tip
and already-saved ones), branch tips, bookmarks, multi-head open branches,
closed heads, and the HEAD alias. nodeToRev embeds
get_revision_id_from_hg_nodeid and relId the release id computed by
store_release. -/
def buildSnapshotBranches (bi : BranchingInfo) (tags : List (Bytes × Bytes))
    (savedTags : List Bytes) (nodeToRev : Bytes → Bytes)
    (relId : Bytes → Bytes → Bytes) : Bytes → Option SnapBranch :=
  let s5 :=
    snapAddClosedHeads bi.closedHeads nodeToRev
      (snapAddOpenHeads bi.openHeads nodeToRev
        (snapAddBookmarks bi.bookmarks nodeToRev
          (snapAddTips bi.tips nodeToRev
            (snapAddTags tags savedTags nodeToRev relId (fun _ => none)))))
  match bi.defaultBranchAlias with
  | some a => snapUpd s5 headNameBytes ⟨a, .alias⟩
  | none => s5

/-- Mutable state of the revision loop of store_data: the ignored revision
set, the visit status override, and the revisions whose revision object and
ExtID record were emitted (revision_add and extid_add run together at the
end of store_revision, after every point that can raise CorruptedRevision). -/
structure StoreState where
  ignored : Finset Nat
  visitStatus : Option String
  emitted : List Nat
deriving DecidableEq

/-- The revision loop of HgLoaderFromDisk.store_data (from_disk.py lines
353-363): skip already-ignored revisions; a CorruptedRevision (corrupt r)
sets the visit status to partial and ignores the descendants of r; otherwise
store_revision emits the revision and its ExtID. -/
def storeLoop (corrupt : Nat → Bool) (descendants : Nat → Finset Nat) :
    List Nat → StoreState → StoreState
  | [], st => st
  | r :: rest, st =>
    if r ∈ st.ignored then storeLoop corrupt descendants rest st
    else if corrupt r then
      storeLoop corrupt descendants rest
        { st with visitStatus := some "partial",
                  ignored := st.ignored ∪ descendants r }
    else
      storeLoop corrupt descendants rest
        { st with emitted := st.emitted ++ [r] }

/-- Outcome of HgLoaderFromDisk.store_data: the load status reported by
load_status, the visit status override (none means the default full), the
emitted revisions, and the snapshot stored by snapshot_add (none when the
method returns before reaching it). -/
structure LoadOutcome where
  loadStatus : String
  visitStatus : Option String
  emitted : List Nat
  snapshot : Option (Bytes → Option SnapBranch)

/-- Shallow embedding of HgLoaderFromDisk.store_data (from_disk.py lines
343-429): empty selection returns uneventful with no snapshot; then the
revision loop runs; if the ignored set has swallowed every selected revision
the load is uneventful and no snapshot is stored; otherwise the snapshot is
built from branching_info over the ignored set. -/
def store_data (revs : List Nat) (corrupt : Nat → Bool)
    (descendants : Nat → Finset Nat) (repo : RepoModel)
    (tags : List (Bytes × Bytes)) (savedTags : List Bytes)
    (nodeToRev : Bytes → Bytes) (relId : Bytes → Bytes → Bytes) :
    LoadOutcome :=
  if revs.isEmpty then ⟨"uneventful", none, [], none⟩
  else
    let st := storeLoop corrupt descendants revs ⟨∅, none, []⟩
    if st.ignored.card = revs.length then
      ⟨"uneventful", st.visitStatus, st.emitted, none⟩
    else
      ⟨"eventful", st.visitStatus, st.emitted,
        some (buildSnapshotBranches (branching_info repo st.ignored) tags
          savedTags nodeToRev relId)⟩

theorem storeLoop_ignored_mono (corrupt : Nat → Bool)
    (descendants : Nat → Finset Nat) (rs : List Nat) (st : StoreState) :
    st.ignored ⊆ (storeLoop corrupt descendants rs st).ignored := by
  induction rs generalizing st with
  | nil => exact Finset.Subset.refl _
  | cons a tl ih =>
    rw [storeLoop]
    by_cases ha : a ∈ st.ignored
    · rw [if_pos ha]; exact ih st
    · rw [if_neg ha]
      by_cases hc : corrupt a
      · rw [if_pos hc]
        exact Finset.Subset.trans Finset.subset_union_left
          (ih { st with visitStatus := some "partial",
                        ignored := st.ignored ∪ descendants a })
      · rw [if_neg hc]
        exact ih { st with emitted := st.emitted ++ [a] }

theorem storeLoop_emitted_mono (corrupt : Nat → Bool)
    (descendants : Nat → Finset Nat) (rs : List Nat) (st : StoreState)
    (e : Nat) (he : e ∈ st.emitted) :
    e ∈ (storeLoop corrupt descendants rs st).emitted := by
  induction rs generalizing st with
  | nil => exact he
  | cons a tl ih =>
    rw [storeLoop]
    by_cases ha : a ∈ st.ignored
    · rw [if_pos ha]; exact ih st he
    · rw [if_neg ha]
      by_cases hc : corrupt a
      · rw [if_pos hc]; exact ih _ he
      · rw [if_neg hc]; exact ih _ (List.mem_append_left _ he)

theorem storeLoop_visit_mono (corrupt : Nat → Bool)
    (descendants : Nat → Finset Nat) (rs : List Nat) (st : StoreState)
    (h : st.visitStatus = some "partial") :
    (storeLoop corrupt descendants rs st).visitStatus = some "partial" := by
  induction rs generalizing st with
  | nil => exact h
  | cons a tl ih =>
    rw [storeLoop]
    by_cases ha : a ∈ st.ignored
    · rw [if_pos ha]; exact ih st h
    · rw [if_neg ha]
      by_cases hc : corrupt a
      · rw [if_pos hc]; exact ih _ rfl
      · rw [if_neg hc]; exact ih _ h

theorem storeLoop_partial_of_corrupt (corrupt : Nat → Bool)
    (descendants : Nat → Finset Nat) (rs : List Nat) (st : StoreState)
    (hinv : st.ignored.Nonempty → st.visitStatus = some "partial")
    (hex : ∃ r ∈ rs, corrupt r = true) :
    (storeLoop corrupt descendants rs st).visitStatus = some "partial" := by
  induction rs generalizing st with
  | nil => obtain ⟨r, hr, _⟩ := hex; exact absurd hr (List.not_mem_nil r)
  | cons a tl ih =>
    rw [storeLoop]
    by_cases ha : a ∈ st.ignored
    · rw [if_pos ha]
      obtain ⟨r, hr, hc⟩ := hex
      rcases List.mem_cons.mp hr with heq | htl
      · exact storeLoop_visit_mono _ _ _ _ (hinv ⟨a, ha⟩)
      · exact ih st hinv ⟨r, htl, hc⟩
    · rw [if_neg ha]
      by_cases hc : corrupt a
      · rw [if_pos hc]
        exact storeLoop_visit_mono _ _ _ _ rfl
      · rw [if_neg hc]
        obtain ⟨r, hr, hcr⟩ := hex
        rcases List.mem_cons.mp hr with heq | htl
        · rw [heq] at hcr
          exact absurd hcr hc
        · exact ih { st with emitted := st.emitted ++ [a] } hinv ⟨r, htl, hcr⟩

theorem storeLoop_corrupt_skipped (corrupt : Nat → Bool)
    (descendants : Nat → Finset Nat)
    (htrans : ∀ r d, d ∈ descendants r → descendants d ⊆ descendants r)
    (rs : List Nat) (st : StoreState)
    (hinv : ∀ x ∈ st.ignored, descendants x ⊆ st.ignored) :
    (∀ x ∈ (storeLoop corrupt descendants rs st).ignored,
      descendants x ⊆ (storeLoop corrupt descendants rs st).ignored) ∧
    (∀ r ∈ rs, corrupt r = true →
      descendants r ⊆ (storeLoop corrupt descendants rs st).ignored) := by
  induction rs generalizing st with
  | nil =>
    refine ⟨hinv, ?_⟩
    intro r hr
    exact absurd hr (List.not_mem_nil r)
  | cons a tl ih =>
    rw [storeLoop]
    by_cases ha : a ∈ st.ignored
    · rw [if_pos ha]
      obtain ⟨hcl, hsk⟩ := ih st hinv
      refine ⟨hcl, ?_⟩
      intro r hr hc
      rcases List.mem_cons.mp hr with heq | htl
      · rw [heq]
        exact Finset.Subset.trans (hinv a ha)
          (storeLoop_ignored_mono corrupt descendants tl st)
      · exact hsk r htl hc
    · rw [if_neg ha]
      by_cases hc : corrupt a
      · rw [if_pos hc]
        have hinv2 : ∀ x ∈ st.ignored ∪ descendants a,
            descendants x ⊆ st.ignored ∪ descendants a := by
          intro x hx
          rcases Finset.mem_union.mp hx with hx1 | hx2
          · exact Finset.Subset.trans (hinv x hx1) Finset.subset_union_left
          · exact Finset.Subset.trans (htrans a x hx2) Finset.subset_union_right
        obtain ⟨hcl, hsk⟩ := ih
          { st with visitStatus := some "partial",
                    ignored := st.ignored ∪ descendants a } hinv2
        refine ⟨hcl, ?_⟩
        intro r hr hcr
        rcases List.mem_cons.mp hr with heq | htl
        · rw [heq]
          exact Finset.Subset.trans Finset.subset_union_right
            (storeLoop_ignored_mono corrupt descendants tl
              { st with visitStatus := some "partial",
                        ignored := st.ignored ∪ descendants a })
        · exact hsk r htl hcr
      · rw [if_neg hc]
        obtain ⟨hcl, hsk⟩ := ih { st with emitted := st.emitted ++ [a] } hinv
        refine ⟨hcl, ?_⟩
        intro r hr hcr
        rcases List.mem_cons.mp hr with heq | htl
        · rw [heq] at hcr
          exact absurd hcr hc
        · exact hsk r htl hcr

theorem storeLoop_emits_rest (corrupt : Nat → Bool)
    (descendants : Nat → Finset Nat) (rs : List Nat) (st : StoreState) :
    ∀ r ∈ rs, corrupt r = false →
      r ∉ (storeLoop corrupt descendants rs st).ignored →
      r ∈ (storeLoop corrupt descendants rs st).emitted := by
  induction rs generalizing st with
  | nil =>
    intro r hr
    exact absurd hr (List.not_mem_nil r)
  | cons a tl ih =>
    intro r hr hcr hni
    rw [storeLoop] at hni ⊢
    by_cases ha : a ∈ st.ignored
    · rw [if_pos ha] at hni ⊢
      rcases List.mem_cons.mp hr with heq | htl
      · subst heq
        exact absurd (storeLoop_ignored_mono corrupt descendants tl st ha) hni
      · exact ih st r htl hcr hni
    · rw [if_neg ha] at hni ⊢
      by_cases hc : corrupt a
      · rw [if_pos hc] at hni ⊢
        rcases List.mem_cons.mp hr with heq | htl
        · subst heq
          exact absurd hcr (by simp [hc])
        · exact ih _ r htl hcr hni
      · rw [if_neg hc] at hni ⊢
        rcases List.mem_cons.mp hr with heq | htl
        · subst heq
          apply storeLoop_emitted_mono
          exact List.mem_append_right _ (List.mem_singleton.mpr rfl)
        · exact ih _ r htl hcr hni

theorem storeLoop_emitted_not_ignored (corrupt : Nat → Bool)
    (descendants : Nat → Finset Nat)
    (hmono : ∀ r d, d ∈ descendants r → r ≤ d)
    (rs : List Nat) (st : StoreState)
    (hsorted : List.Pairwise (· < ·) rs)
    (hinv1 : ∀ e ∈ st.emitted, e ∉ st.ignored)
    (hinv2 : ∀ e ∈ st.emitted, ∀ r ∈ rs, e < r) :
    ∀ e ∈ (storeLoop corrupt descendants rs st).emitted,
      e ∉ (storeLoop corrupt descendants rs st).ignored := by
  induction rs generalizing st with
  | nil => exact hinv1
  | cons a tl ih =>
    have hsa : ∀ r ∈ tl, a < r := (List.pairwise_cons.mp hsorted).1
    have hstl : List.Pairwise (· < ·) tl := (List.pairwise_cons.mp hsorted).2
    rw [storeLoop]
    by_cases ha : a ∈ st.ignored
    · rw [if_pos ha]
      exact ih st hstl hinv1
        (fun e he r hr => hinv2 e he r (List.mem_cons_of_mem a hr))
    · rw [if_neg ha]
      by_cases hc : corrupt a
      · rw [if_pos hc]
        apply ih _ hstl
        · intro e he
          simp only [Finset.mem_union]
          push_neg
          refine ⟨hinv1 e he, ?_⟩
          intro hd
          have h1 : a ≤ e := hmono a e hd
          have h2 : e < a := hinv2 e he a (List.mem_cons_self a tl)
          omega
        · intro e he r hr
          exact hinv2 e he r (List.mem_cons_of_mem a hr)
      · rw [if_neg hc]
        apply ih _ hstl
        · intro e he
          rcases List.mem_append.mp he with h1 | h2
          · exact hinv1 e h1
          · rw [List.mem_singleton.mp h2]
            exact ha
        · intro e he r hr
          rcases List.mem_append.mp he with h1 | h2
          · exact hinv2 e h1 r (List.mem_cons_of_mem a hr)
          · rw [List.mem_singleton.mp h2]
            exact hsa r hr

theorem storeLoop_ignored_sub (corrupt : Nat → Bool)
    (descendants : Nat → Finset Nat) (revSet : Finset Nat)
    (rs : List Nat) (st : StoreState)
    (hrs : ∀ r ∈ rs, r ∈ revSet)
    (hsub : ∀ r ∈ revSet, ∀ d ∈ descendants r, d ∈ revSet)
    (hinv : st.ignored ⊆ revSet) :
    (storeLoop corrupt descendants rs st).ignored ⊆ revSet := by
  induction rs generalizing st with
  | nil => exact hinv
  | cons a tl ih =>
    rw [storeLoop]
    by_cases ha : a ∈ st.ignored
    · rw [if_pos ha]
      exact ih st (fun r hr => hrs r (List.mem_cons_of_mem a hr)) hinv
    · rw [if_neg ha]
      by_cases hc : corrupt a
      · rw [if_pos hc]
        apply ih _ (fun r hr => hrs r (List.mem_cons_of_mem a hr))
        intro x hx
        rcases Finset.mem_union.mp hx with h1 | h2
        · exact hinv h1
        · exact hsub a (hrs a (List.mem_cons_self a tl)) x h2
      · rw [if_neg hc]
        exact ih _ (fun r hr => hrs r (List.mem_cons_of_mem a hr)) hinv

/-- C4: if storing some revision raises CorruptedRevision during a load,
the loader marks that changeset and all of its descendants as skipped, sets
the visit status to partial, keeps loading the remaining revisions, and
emits neither a revision object nor an ExtID record for any skipped
changeset (emitted covers both: revision_add and extid_add run together
after every raising point of store_revision). Hypotheses: the revision
numbers are iterated in ascending order, Mercurial descendant sets contain
the revision itself, only later revisions, and are transitively closed. -/
theorem store_data_corrupted_revision (revs : List Nat) (corrupt : Nat → Bool)
    (descendants : Nat → Finset Nat) (repo : RepoModel)
    (tags : List (Bytes × Bytes)) (savedTags : List Bytes)
    (nodeToRev : Bytes → Bytes) (relId : Bytes → Bytes → Bytes)
    (hsorted : List.Pairwise (· < ·) revs)
    (hself : ∀ r, r ∈ descendants r)
    (hmono : ∀ r d, d ∈ descendants r → r ≤ d)
    (htrans : ∀ r d, d ∈ descendants r → descendants d ⊆ descendants r)
    (hex : ∃ r ∈ revs, corrupt r = true) :
    (storeLoop corrupt descendants revs ⟨∅, none, []⟩).visitStatus =
      some "partial" ∧
    (∀ r ∈ revs, corrupt r = true →
      r ∈ (storeLoop corrupt descendants revs ⟨∅, none, []⟩).ignored ∧
      descendants r ⊆
        (storeLoop corrupt descendants revs ⟨∅, none, []⟩).ignored) ∧
    (∀ r ∈ revs, corrupt r = false →
      r ∉ (storeLoop corrupt descendants revs ⟨∅, none, []⟩).ignored →
      r ∈ (storeLoop corrupt descendants revs ⟨∅, none, []⟩).emitted) ∧
    (∀ e ∈ (storeLoop corrupt descendants revs ⟨∅, none, []⟩).emitted,
      e ∉ (storeLoop corrupt descendants revs ⟨∅, none, []⟩).ignored) ∧
    (store_data revs corrupt descendants repo tags savedTags nodeToRev
      relId).visitStatus = some "partial" ∧
    (store_data revs corrupt descendants repo tags savedTags nodeToRev
      relId).emitted =
      (storeLoop corrupt descendants revs ⟨∅, none, []⟩).emitted := by
  have h1 := storeLoop_partial_of_corrupt corrupt descendants revs ⟨∅, none, []⟩
    (by intro h; exact absurd h (by simp)) hex
  have h2 := (storeLoop_corrupt_skipped corrupt descendants htrans revs
    ⟨∅, none, []⟩ (by intro x hx; exact absurd hx (by simp))).2
  have h3 := storeLoop_emits_rest corrupt descendants revs ⟨∅, none, []⟩
  have h4 := storeLoop_emitted_not_ignored corrupt descendants hmono revs
    ⟨∅, none, []⟩ hsorted
    (by intro e he; exact absurd he (List.not_mem_nil e))
    (by intro e he; exact absurd he (List.not_mem_nil e))
  have hne : revs.isEmpty = false := by
    obtain ⟨r, hr, _⟩ := hex
    cases revs with
    | nil => exact absurd hr (List.not_mem_nil r)
    | cons a tl => rfl
  refine ⟨h1, ?_, h3, h4, ?_, ?_⟩
  · intro r hr hc
    exact ⟨h2 r hr hc (hself r), h2 r hr hc⟩
  · unfold store_data
    rw [if_neg (by simp [hne])]
    by_cases hcard : (storeLoop corrupt descendants revs
        ⟨∅, none, []⟩).ignored.card = revs.length
    · rw [if_pos hcard]
      exact h1
    · rw [if_neg hcard]
      exact h1
  · unfold store_data
    rw [if_neg (by simp [hne])]
    by_cases hcard : (storeLoop corrupt descendants revs
        ⟨∅, none, []⟩).ignored.card = revs.length
    · rw [if_pos hcard]
    · rw [if_neg hcard]

/-- Witness for C4: loading revisions 0, 1, 2 where revision 1 is corrupted
skips 1 and its descendant 2, turns the visit partial, and still emits 0. -/
theorem store_data_corrupted_revision_witness :
    (storeLoop (fun r => r == 1)
      (fun r => if r = 0 then {0, 1, 2} else if r = 1 then {1, 2} else {r})
      [0, 1, 2] ⟨∅, none, []⟩).visitStatus = some "partial" ∧
    1 ∈ (storeLoop (fun r => r == 1)
      (fun r => if r = 0 then {0, 1, 2} else if r = 1 then {1, 2} else {r})
      [0, 1, 2] ⟨∅, none, []⟩).ignored ∧
    0 ∈ (storeLoop (fun r => r == 1)
      (fun r => if r = 0 then {0, 1, 2} else if r = 1 then {1, 2} else {r})
      [0, 1, 2] ⟨∅, none, []⟩).emitted ∧
    (store_data [0, 1, 2] (fun r => r == 1)
      (fun r => if r = 0 then {0, 1, 2} else if r = 1 then {1, 2} else {r})
      ⟨[], [], fun _ => []⟩ [] [] (fun n => n)
      (fun _ _ => [])).visitStatus = some "partial" := by
  have h := store_data_corrupted_revision [0, 1, 2] (fun r => r == 1)
    (fun r => if r = 0 then {0, 1, 2} else if r = 1 then {1, 2} else {r})
    ⟨[], [], fun _ => []⟩ [] [] (fun n => n) (fun _ _ => [])
    (by decide)
    (by
      intro r
      by_cases h0 : r = 0
      · subst h0; decide
      · by_cases h1 : r = 1
        · subst h1; decide
        · simp [h0, h1])
    (by
      intro r d hd
      by_cases h0 : r = 0
      · subst h0; simp at hd; omega
      · by_cases h1 : r = 1
        · subst h1; simp at hd; omega
        · simp [h0, h1] at hd; omega)
    (by
      intro r d hd
      by_cases h0 : r = 0
      · subst h0
        simp at hd
        rcases hd with h | h | h <;> subst h <;> decide
      · by_cases h1 : r = 1
        · subst h1
          simp at hd
          rcases hd with h | h <;> subst h <;> decide
        · simp [h0, h1] at hd
          subst hd
          simp [h0, h1])
    ⟨1, by decide, by decide⟩
  exact ⟨h.1, (h.2.1 1 (by decide) (by decide)).1,
    h.2.2.1 0 (by decide) (by decide) (by decide), h.2.2.2.2.1⟩

/-- C10: when the ignored set ends up covering every selected revision (all
of them skipped through CorruptedRevision), store_data reports load status
uneventful and stores no snapshot at all. Hypotheses: the selected revision
numbers are distinct, and descendants of selected revisions are again
selected (which holds both for all() and for the incremental revset). -/
theorem store_data_all_skipped_uneventful (revs : List Nat)
    (corrupt : Nat → Bool) (descendants : Nat → Finset Nat)
    (repo : RepoModel) (tags : List (Bytes × Bytes)) (savedTags : List Bytes)
    (nodeToRev : Bytes → Bytes) (relId : Bytes → Bytes → Bytes)
    (hnodup : revs.Nodup)
    (hsub : ∀ r ∈ revs, ∀ d ∈ descendants r, d ∈ revs)
    (hcover : ∀ r ∈ revs,
      r ∈ (storeLoop corrupt descendants revs ⟨∅, none, []⟩).ignored) :
    (store_data revs corrupt descendants repo tags savedTags nodeToRev
      relId).loadStatus = "uneventful" ∧
    (store_data revs corrupt descendants repo tags savedTags nodeToRev
      relId).snapshot = none := by
  by_cases hemp : revs.isEmpty
  · unfold store_data
    rw [if_pos hemp]
    exact ⟨rfl, rfl⟩
  · have hsubset : (storeLoop corrupt descendants revs ⟨∅, none, []⟩).ignored
        ⊆ revs.toFinset :=
      storeLoop_ignored_sub corrupt descendants revs.toFinset revs ⟨∅, none, []⟩
        (fun r hr => List.mem_toFinset.mpr hr)
        (fun r hr d hd =>
          List.mem_toFinset.mpr (hsub r (List.mem_toFinset.mp hr) d hd))
        (by simp)
    have hsup : revs.toFinset ⊆
        (storeLoop corrupt descendants revs ⟨∅, none, []⟩).ignored := by
      intro x hx
      exact hcover x (List.mem_toFinset.mp hx)
    have hcard : (storeLoop corrupt descendants revs
        ⟨∅, none, []⟩).ignored.card = revs.length := by
      rw [Finset.Subset.antisymm hsubset hsup]
      exact List.toFinset_card_of_nodup hnodup
    unfold store_data
    rw [if_neg hemp]
    rw [if_pos hcard]
    exact ⟨rfl, rfl⟩

/-- Witness for C10: both revisions corrupted, everything skipped, load
uneventful and no snapshot stored. -/
theorem store_data_all_skipped_uneventful_witness :
    (store_data [0, 1] (fun _ => true) (fun r => {r})
      ⟨[], [], fun _ => []⟩ [] [] (fun n => n)
      (fun _ _ => [])).loadStatus = "uneventful" ∧
    (store_data [0, 1] (fun _ => true) (fun r => {r})
      ⟨[], [], fun _ => []⟩ [] [] (fun n => n)
      (fun _ _ => [])).snapshot = none := by
  apply store_data_all_skipped_uneventful
  · decide
  · intro r hr d hd
    simp at hd
    subst hd
    exact hr
  · decide

theorem foldl_preserve {α β : Type} (P : β → Prop) (f : β → α → β) :
    ∀ (l : List α) (s : β), P s → (∀ s2 a, a ∈ l → P s2 → P (f s2 a)) →
    P (l.foldl f s) := by
  intro l
  induction l with
  | nil => intro s hs _; exact hs
  | cons a tl ih =>
    intro s hs hstep
    rw [List.foldl_cons]
    exact ih (f s a) (hstep s a (List.mem_cons_self a tl) hs)
      (fun s2 b hb => hstep s2 b (List.mem_cons_of_mem a hb))

theorem bGet_bSet_self (m : List (Bytes × Bytes)) (k v : Bytes) :
    bGet (bSet m k v) k = some v := by
  induction m with
  | nil => simp [bSet, bGet]
  | cons e tl ih =>
    rcases e with ⟨k2, v2⟩
    by_cases hk : k2 = k
    · rw [bSet, if_pos hk, bGet, if_pos hk]
    · rw [bSet, if_neg hk, bGet, if_neg hk]
      exact ih

theorem bGet_bSet_ne (m : List (Bytes × Bytes)) (k v k2 : Bytes)
    (hk : k2 ≠ k) : bGet (bSet m k v) k2 = bGet m k2 := by
  induction m with
  | nil =>
    simp only [bSet, bGet]
    rw [if_neg (fun h => hk h.symm)]
  | cons e tl ih =>
    rcases e with ⟨k3, v3⟩
    by_cases h3 : k3 = k
    · rw [bSet, if_pos h3, bGet, bGet]
      by_cases h32 : k3 = k2
      · exact absurd (h32.symm.trans h3) hk
      · rw [if_neg h32, if_neg h32]
    · rw [bSet, if_neg h3, bGet, bGet]
      by_cases h32 : k3 = k2
      · rw [if_pos h32, if_pos h32]
      · rw [if_neg h32, if_neg h32]
        exact ih

theorem bSet_mem (m : List (Bytes × Bytes)) (k v : Bytes)
    (e : Bytes × Bytes) (he : e ∈ bSet m k v) : e ∈ m ∨ e.2 = v := by
  induction m with
  | nil =>
    rw [bSet] at he
    rcases List.mem_singleton.mp he with h
    exact Or.inr (by rw [h])
  | cons e2 tl ih =>
    rcases e2 with ⟨k2, v2⟩
    by_cases hk : k2 = k
    · rw [bSet, if_pos hk] at he
      rcases List.mem_cons.mp he with h | h
      · exact Or.inr (by rw [h])
      · exact Or.inl (List.mem_cons_of_mem _ h)
    · rw [bSet, if_neg hk] at he
      rcases List.mem_cons.mp he with h | h
      · exact Or.inl (h ▸ List.mem_cons_self _ _)
      · rcases ih h with h2 | h2
        · exact Or.inl (List.mem_cons_of_mem _ h2)
        · exact Or.inr h2

theorem bGet_mem (m : List (Bytes × Bytes)) (k v : Bytes)
    (h : bGet m k = some v) : (k, v) ∈ m := by
  induction m with
  | nil => exact absurd h (by simp [bGet])
  | cons e tl ih =>
    rcases e with ⟨k2, v2⟩
    by_cases hk : k2 = k
    · rw [bGet, if_pos hk] at h
      exact hk ▸ (Option.some.inj h ▸ List.mem_cons_self _ _)
    · rw [bGet, if_neg hk] at h
      exact List.mem_cons_of_mem _ (ih h)

theorem alGet_alAppend_self (m : List (Bytes × List Bytes)) (k v : Bytes) :
    alGet (alAppend m k v) k = some ((alGet m k).getD [] ++ [v]) := by
  induction m with
  | nil => simp [alAppend, alGet]
  | cons e tl ih =>
    rcases e with ⟨k2, l2⟩
    by_cases hk : k2 = k
    · rw [alAppend, if_pos hk, alGet, if_pos hk, alGet, if_pos hk]
      rfl
    · rw [alAppend, if_neg hk, alGet, if_neg hk, alGet, if_neg hk]
      exact ih

theorem alGet_alAppend_ne (m : List (Bytes × List Bytes)) (k v : Bytes)
    (k2 : Bytes) (hk : k2 ≠ k) :
    alGet (alAppend m k v) k2 = alGet m k2 := by
  induction m with
  | nil =>
    simp only [alAppend, alGet]
    rw [if_neg (fun h => hk h.symm)]
  | cons e tl ih =>
    rcases e with ⟨k3, l3⟩
    by_cases h3 : k3 = k
    · rw [alAppend, if_pos h3, alGet, alGet]
      by_cases h32 : k3 = k2
      · exact absurd (h32.symm.trans h3) hk
      · rw [if_neg h32, if_neg h32]
    · rw [alAppend, if_neg h3, alGet, alGet]
      by_cases h32 : k3 = k2
      · rw [if_pos h32, if_pos h32]
      · rw [if_neg h32, if_neg h32]
        exact ih

theorem alAppend_keys (m : List (Bytes × List Bytes)) (k v : Bytes) :
    (alAppend m k v).map Prod.fst = m.map Prod.fst ∨
    (alAppend m k v).map Prod.fst = m.map Prod.fst ++ [k] := by
  induction m with
  | nil => exact Or.inr (by simp [alAppend])
  | cons e tl ih =>
    rcases e with ⟨k2, l2⟩
    by_cases hk : k2 = k
    · rw [alAppend, if_pos hk]
      exact Or.inl (by simp)
    · rw [alAppend, if_neg hk]
      rcases ih with h | h
      · exact Or.inl (by simp [h])
      · exact Or.inr (by simp [h])

theorem alAppend_keys_nodup (m : List (Bytes × List Bytes)) (k v : Bytes)
    (hnd : (m.map Prod.fst).Nodup) :
    ((alAppend m k v).map Prod.fst).Nodup := by
  induction m with
  | nil => simp [alAppend]
  | cons e tl ih =>
    rcases e with ⟨k2, l2⟩
    rw [List.map_cons, List.nodup_cons] at hnd
    by_cases hk : k2 = k
    · rw [alAppend, if_pos hk]
      rw [List.map_cons, List.nodup_cons]
      exact hnd
    · rw [alAppend, if_neg hk]
      rw [List.map_cons, List.nodup_cons]
      refine ⟨?_, ih hnd.2⟩
      intro hmem
      rcases alAppend_keys tl k v with h | h
      · rw [h] at hmem
        exact hnd.1 hmem
      · rw [h] at hmem
        rcases List.mem_append.mp hmem with h2 | h2
        · exact hnd.1 h2
        · exact hk (List.mem_singleton.mp h2)

theorem alGet_none_of_not_key (m : List (Bytes × List Bytes)) (k : Bytes)
    (h : k ∉ m.map Prod.fst) : alGet m k = none := by
  induction m with
  | nil => rfl
  | cons e tl ih =>
    rcases e with ⟨k2, l2⟩
    rw [alGet]
    rw [List.map_cons] at h
    by_cases hk : k2 = k
    · exact absurd (hk ▸ List.mem_cons_self _ _) h
    · rw [if_neg hk]
      exact ih (fun h2 => h (List.mem_cons_of_mem _ h2))

theorem alGet_filter (m : List (Bytes × List Bytes))
    (p : Bytes × List Bytes → Bool) (k : Bytes)
    (hnd : (m.map Prod.fst).Nodup) :
    alGet (m.filter p) k =
      match alGet m k with
      | some l => if p (k, l) then some l else none
      | none => none := by
  induction m with
  | nil => rfl
  | cons e tl ih =>
    rcases e with ⟨k2, l2⟩
    rw [List.map_cons, List.nodup_cons] at hnd
    by_cases hk : k2 = k
    · subst hk
      by_cases hpe : p (k2, l2)
      · rw [List.filter_cons_of_pos hpe]
        show (if k2 = k2 then some l2 else alGet (tl.filter p) k2) = _
        rw [if_pos rfl]
        rw [show alGet ((k2, l2) :: tl) k2 = some l2 from by
          rw [alGet, if_pos rfl]]
        show some l2 = if p (k2, l2) = true then some l2 else none
        rw [if_pos hpe]
      · rw [List.filter_cons_of_neg hpe]
        rw [show alGet ((k2, l2) :: tl) k2 = some l2 from by
          rw [alGet, if_pos rfl]]
        show alGet (tl.filter p) k2 = if p (k2, l2) = true then some l2 else none
        rw [if_neg hpe]
        apply alGet_none_of_not_key
        intro hmem
        obtain ⟨e2, he2, hfst⟩ := List.mem_map.mp hmem
        exact hnd.1 (List.mem_map.mpr ⟨e2, List.mem_of_mem_filter he2, hfst⟩)
    · by_cases hpe : p (k2, l2)
      · rw [List.filter_cons_of_pos hpe]
        show (if k2 = k then some l2 else alGet (tl.filter p) k) = _
        rw [if_neg hk]
        rw [show alGet ((k2, l2) :: tl) k = alGet tl k from by
          rw [alGet, if_neg hk]]
        exact ih hnd.2
      · rw [List.filter_cons_of_neg hpe]
        rw [show alGet ((k2, l2) :: tl) k = alGet tl k from by
          rw [alGet, if_neg hk]]
        exact ih hnd.2

theorem decToBytes_digits (n : Nat) : ∀ c ∈ decToBytes n, 48 ≤ c ∧ c ≤ 57 := by
  induction n using Nat.strong_induction_on with
  | _ n ih =>
    rw [decToBytes]
    by_cases h : n < 10
    · rw [if_pos h]
      intro c hc
      rw [List.mem_singleton.mp hc]
      omega
    · rw [if_neg h]
      intro c hc
      rcases List.mem_append.mp hc with h2 | h2
      · exact ih (n / 10) (Nat.div_lt_self (by omega) (by omega)) c h2
      · rw [List.mem_singleton.mp h2]
        have := Nat.mod_lt n (show 0 < 10 by omega)
        omega

theorem decToBytes_no_sep (n : Nat) : 47 ∉ decToBytes n := by
  intro h
  have := decToBytes_digits n 47 h
  omega

def decValue (l : Bytes) : Nat := l.foldl (fun acc c => acc * 10 + (c - 48)) 0

theorem decValue_aux (l : Bytes) (c : Nat) :
    ∀ a, (l ++ [c]).foldl (fun acc c => acc * 10 + (c - 48)) a =
      (l.foldl (fun acc c => acc * 10 + (c - 48)) a) * 10 + (c - 48) := by
  intro a
  rw [List.foldl_append]
  rfl

theorem decValue_decToBytes (n : Nat) : decValue (decToBytes n) = n := by
  induction n using Nat.strong_induction_on with
  | _ n ih =>
    rw [decToBytes]
    by_cases h : n < 10
    · rw [if_pos h]
      show 0 * 10 + (48 + n - 48) = n
      omega
    · rw [if_neg h]
      unfold decValue
      rw [decValue_aux]
      have h2 := ih (n / 10) (Nat.div_lt_self (by omega) (by omega))
      unfold decValue at h2
      rw [h2]
      have := Nat.div_add_mod n 10
      omega

theorem decToBytes_inj (i j : Nat) (h : decToBytes i = decToBytes j) : i = j := by
  rw [← decValue_decToBytes i, ← decValue_decToBytes j, h]

theorem sep_split_head (x : Bytes) :
    ∀ (x2 y y2 : Bytes), 47 ∉ x → 47 ∉ x2 →
    x ++ 47 :: y = x2 ++ 47 :: y2 → x = x2 ∧ y = y2 := by
  induction x with
  | nil =>
    intro x2 y y2 _ hx2 h
    cases x2 with
    | nil =>
      simp only [List.nil_append] at h
      exact ⟨rfl, (List.cons.inj h).2⟩
    | cons a2 t2 =>
      rw [List.nil_append, List.cons_append] at h
      have h1 := (List.cons.inj h).1
      refine absurd (show (47 : Nat) ∈ a2 :: t2 from ?_) hx2
      rw [h1]
      exact List.mem_cons_self a2 t2
  | cons a t ih =>
    intro x2 y y2 hx hx2 h
    cases x2 with
    | nil =>
      rw [List.nil_append, List.cons_append] at h
      have h1 := (List.cons.inj h).1
      refine absurd (show (47 : Nat) ∈ a :: t from ?_) hx
      rw [h1]
      exact List.mem_cons_self 47 t
    | cons a2 t2 =>
      rw [List.cons_append, List.cons_append] at h
      have h1 := (List.cons.inj h).1
      have h2 := (List.cons.inj h).2
      obtain ⟨ht, hy⟩ := ih t2 y y2
        (fun hm => hx (List.mem_cons_of_mem a hm))
        (fun hm => hx2 (List.mem_cons_of_mem a2 hm)) h2
      exact ⟨by rw [h1, ht], hy⟩

theorem sep_split_last (b b2 d d2 : Bytes) (hd : 47 ∉ d) (hd2 : 47 ∉ d2)
    (h : b ++ 47 :: d = b2 ++ 47 :: d2) : b = b2 ∧ d = d2 := by
  have hrev : d.reverse ++ 47 :: b.reverse = d2.reverse ++ 47 :: b2.reverse := by
    have := congrArg List.reverse h
    simp only [List.reverse_append, List.reverse_cons] at this
    simpa [List.append_assoc] using this
  obtain ⟨h1, h2⟩ := sep_split_head d.reverse d2.reverse b.reverse b2.reverse
    (fun hm => hd (List.mem_reverse.mp hm))
    (fun hm => hd2 (List.mem_reverse.mp hm)) hrev
  constructor
  · exact List.reverse_injective h2
  · exact List.reverse_injective h1

theorem bhKey_inj (b b2 : Bytes) (i i2 : Nat) (h : bhKey b i = bhKey b2 i2) :
    b = b2 ∧ i = i2 := by
  unfold bhKey at h
  rw [List.append_assoc, List.append_assoc] at h
  have h2 : b ++ 47 :: decToBytes i = b2 ++ 47 :: decToBytes i2 :=
    List.append_cancel_left h
  obtain ⟨hb, hd⟩ := sep_split_last b b2 (decToBytes i) (decToBytes i2)
    (decToBytes_no_sep i) (decToBytes_no_sep i2) h2
  exact ⟨hb, decToBytes_inj i i2 hd⟩

theorem tipKey_inj (b b2 : Bytes) (h : tipKey b = tipKey b2) : b = b2 :=
  List.append_cancel_left h

theorem bhKey_ne_head (b : Bytes) (i : Nat) : bhKey b i ≠ headNameBytes := by
  intro h
  simp [bhKey, bhPrefix, headNameBytes] at h

theorem tipKey_ne_head (b : Bytes) : tipKey b ≠ headNameBytes := by
  intro h
  simp [tipKey, tipPrefix, headNameBytes] at h

theorem bhKey_ne_bchKey (b b2 : Bytes) (i i2 : Nat) :
    bhKey b i ≠ bchKey b2 i2 := by
  intro h
  simp [bhKey, bchKey, bhPrefix, bchPrefix] at h

theorem tipKey_ne_bchKey (b b2 : Bytes) (i2 : Nat) :
    tipKey b ≠ bchKey b2 i2 := by
  intro h
  simp [tipKey, bchKey, tipPrefix, bchPrefix] at h

theorem tipKey_ne_bhKey (b b2 : Bytes) (i2 : Nat) :
    tipKey b ≠ bhKey b2 i2 := by
  intro h
  simp [tipKey, bhKey, tipPrefix, bhPrefix] at h

theorem bhKey_ne_bmKey (b b2 : Bytes) (i : Nat) : bhKey b i ≠ bmKey b2 := by
  intro h
  simp [bhKey, bmKey, bhPrefix, bmPrefix] at h

theorem tipKey_ne_bmKey (b b2 : Bytes) : tipKey b ≠ bmKey b2 := by
  intro h
  simp [tipKey, bmKey, tipPrefix, bmPrefix] at h

theorem bhKey_ne_tipKey (b b2 : Bytes) (i : Nat) : bhKey b i ≠ tipKey b2 := by
  intro h
  simp [bhKey, tipKey, bhPrefix, tipPrefix] at h

theorem bhKey_ne_tagKey (b t : Bytes) (i : Nat) : bhKey b i ≠ tagKey t := by
  intro h
  simp [bhKey, tagKey, bhPrefix, tagsPrefix] at h

theorem tipKey_ne_tagKey (b t : Bytes) : tipKey b ≠ tagKey t := by
  intro h
  simp [tipKey, tagKey, tipPrefix, tagsPrefix] at h

theorem head_ne_bchKey (b : Bytes) (i : Nat) : headNameBytes ≠ bchKey b i := by
  intro h
  simp [headNameBytes, bchKey, bchPrefix] at h

theorem head_ne_bhKey (b : Bytes) (i : Nat) : headNameBytes ≠ bhKey b i := by
  intro h
  simp [headNameBytes, bhKey, bhPrefix] at h

theorem head_ne_bmKey (b : Bytes) : headNameBytes ≠ bmKey b := by
  intro h
  simp [headNameBytes, bmKey, bmPrefix] at h

theorem head_ne_tipKey (b : Bytes) : headNameBytes ≠ tipKey b := by
  intro h
  simp [headNameBytes, tipKey, tipPrefix] at h

theorem head_ne_tagKey (t : Bytes) : headNameBytes ≠ tagKey t := by
  intro h
  simp [headNameBytes, tagKey, tagsPrefix] at h

theorem snapUpd_self (s : Bytes → Option SnapBranch) (k : Bytes)
    (v : SnapBranch) : snapUpd s k v k = some v := by
  unfold snapUpd
  rw [if_pos rfl]

theorem snapUpd_ne (s : Bytes → Option SnapBranch) (k : Bytes)
    (v : SnapBranch) (k2 : Bytes) (h : k2 ≠ k) : snapUpd s k v k2 = s k2 := by
  unfold snapUpd
  rw [if_neg h]

theorem snapAddTags_ne (tags : List (Bytes × Bytes)) (saved : List Bytes)
    (n2r : Bytes → Bytes) (relId : Bytes → Bytes → Bytes)
    (s : Bytes → Option SnapBranch) (K : Bytes) (hK : ∀ t, K ≠ tagKey t) :
    snapAddTags tags saved n2r relId s K = s K := by
  unfold snapAddTags
  refine foldl_preserve (fun s2 => s2 K = s K) _ tags s rfl ?_
  intro s2 tv _ hs2
  by_cases h1 : tv.1 = tipBytes
  · rw [if_pos h1]; exact hs2
  · rw [if_neg h1]
    by_cases h2 : tv.2 ∈ saved
    · rw [if_pos h2]; exact hs2
    · rw [if_neg h2, snapUpd_ne _ _ _ _ (hK tv.1)]
      exact hs2

theorem snapAddTips_ne (tips : List (Bytes × Bytes)) (n2r : Bytes → Bytes)
    (s : Bytes → Option SnapBranch) (K : Bytes) (hK : ∀ b, K ≠ tipKey b) :
    snapAddTips tips n2r s K = s K := by
  unfold snapAddTips
  refine foldl_preserve (fun s2 => s2 K = s K) _ tips s rfl ?_
  intro s2 e _ hs2
  rw [snapUpd_ne _ _ _ _ (hK e.1)]
  exact hs2

theorem snapAddBookmarks_ne (bms : List (Bytes × Bytes)) (n2r : Bytes → Bytes)
    (s : Bytes → Option SnapBranch) (K : Bytes) (hK : ∀ b, K ≠ bmKey b) :
    snapAddBookmarks bms n2r s K = s K := by
  unfold snapAddBookmarks
  refine foldl_preserve (fun s2 => s2 K = s K) _ bms s rfl ?_
  intro s2 e _ hs2
  rw [snapUpd_ne _ _ _ _ (hK e.1)]
  exact hs2

theorem snapAddOpenHeads_ne (ohs : List (Bytes × List Bytes))
    (n2r : Bytes → Bytes) (s : Bytes → Option SnapBranch) (K : Bytes)
    (hK : ∀ b i, K ≠ bhKey b i) : snapAddOpenHeads ohs n2r s K = s K := by
  unfold snapAddOpenHeads
  refine foldl_preserve (fun s2 => s2 K = s K) _ ohs s rfl ?_
  intro s2 e _ hs2
  refine foldl_preserve (fun s3 => s3 K = s K) _ e.2.enum s2 hs2 ?_
  intro s3 ih _ hs3
  rw [snapUpd_ne _ _ _ _ (hK e.1 ih.1)]
  exact hs3

theorem snapAddClosedHeads_ne (chs : List (Bytes × List Bytes))
    (n2r : Bytes → Bytes) (s : Bytes → Option SnapBranch) (K : Bytes)
    (hK : ∀ b i, K ≠ bchKey b i) : snapAddClosedHeads chs n2r s K = s K := by
  unfold snapAddClosedHeads
  refine foldl_preserve (fun s2 => s2 K = s K) _ chs s rfl ?_
  intro s2 e _ hs2
  refine foldl_preserve (fun s3 => s3 K = s K) _ e.2.enum s2 hs2 ?_
  intro s3 ih _ hs3
  rw [snapUpd_ne _ _ _ _ (hK e.1 ih.1)]
  exact hs3

theorem snapAddTips_not_key (tips : List (Bytes × Bytes)) (n2r : Bytes → Bytes)
    (s : Bytes → Option SnapBranch) (b : Bytes)
    (hb : b ∉ tips.map Prod.fst) :
    snapAddTips tips n2r s (tipKey b) = s (tipKey b) := by
  unfold snapAddTips
  refine foldl_preserve (fun s2 => s2 (tipKey b) = s (tipKey b)) _ tips s rfl ?_
  intro s2 e he hs2
  rw [snapUpd_ne _ _ _ _ (fun hkk => hb (by
    rw [tipKey_inj b e.1 hkk]
    exact List.mem_map.mpr ⟨e, he, rfl⟩))]
  exact hs2

theorem snapAddTips_lookup (tips : List (Bytes × Bytes)) (n2r : Bytes → Bytes)
    (s : Bytes → Option SnapBranch) (b : Bytes)
    (hnd : (tips.map Prod.fst).Nodup) :
    snapAddTips tips n2r s (tipKey b) =
      match bGet tips b with
      | some n => some ⟨n2r n, .revision⟩
      | none => s (tipKey b) := by
  induction tips generalizing s with
  | nil => rfl
  | cons e tl ih =>
    rcases e with ⟨eb, en⟩
    rw [List.map_cons, List.nodup_cons] at hnd
    show snapAddTips tl n2r (snapUpd s (tipKey eb) ⟨n2r en, .revision⟩)
      (tipKey b) = _
    by_cases he : eb = b
    · subst he
      rw [snapAddTips_not_key tl n2r _ eb hnd.1]
      rw [snapUpd_self]
      rw [show bGet ((eb, en) :: tl) eb = some en from by rw [bGet, if_pos rfl]]
    · rw [ih _ hnd.2]
      rw [show bGet ((eb, en) :: tl) b = bGet tl b from by rw [bGet, if_neg he]]
      cases hg : bGet tl b with
      | some n => rfl
      | none =>
        rw [snapUpd_ne _ _ _ _ (fun hkk => he (tipKey_inj b eb hkk).symm)]

theorem innerOpen_from (n2r : Bytes → Bytes) (b : Bytes) (hs : List Bytes) :
    ∀ (n : Nat) (s : Bytes → Option SnapBranch) (i : Nat),
    ((hs.enumFrom n).foldl (fun s2 ih =>
      snapUpd s2 (bhKey b ih.1) ⟨n2r ih.2, .revision⟩) s) (bhKey b i) =
      if n ≤ i ∧ i < n + hs.length then
        some ⟨n2r (hs.getD (i - n) []), .revision⟩
      else s (bhKey b i) := by
  induction hs with
  | nil =>
    intro n s i
    rw [if_neg (by simp)]
    rfl
  | cons h hs2 ih =>
    intro n s i
    show ((hs2.enumFrom (n + 1)).foldl _
      (snapUpd s (bhKey b n) ⟨n2r h, .revision⟩)) (bhKey b i) = _
    rw [ih (n + 1) _ i]
    by_cases hc : n + 1 ≤ i ∧ i < n + 1 + hs2.length
    · rw [if_pos hc,
        if_pos (show n ≤ i ∧ i < n + (h :: hs2).length from by
          simp only [List.length_cons]; omega)]
      have h1 : i - n = (i - (n + 1)) + 1 := by omega
      rw [h1, List.getD_cons_succ]
    · rw [if_neg hc]
      by_cases hin : i = n
      · subst hin
        rw [snapUpd_self]
        rw [if_pos (show i ≤ i ∧ i < i + (h :: hs2).length from by
          simp only [List.length_cons]; omega)]
        rw [show i - i = 0 from by omega, List.getD_cons_zero]
      · rw [snapUpd_ne _ _ _ _
          (fun hkk => hin (bhKey_inj b b i n hkk).2)]
        rw [if_neg (show ¬(n ≤ i ∧ i < n + (h :: hs2).length) from by
          simp only [List.length_cons]; omega)]

theorem innerOpen_other (n2r : Bytes → Bytes) (b eb : Bytes)
    (hs : List Bytes) (s : Bytes → Option SnapBranch) (i : Nat)
    (hne : eb ≠ b) :
    ((hs.enum).foldl (fun s2 ih =>
      snapUpd s2 (bhKey eb ih.1) ⟨n2r ih.2, .revision⟩) s) (bhKey b i) =
      s (bhKey b i) := by
  refine foldl_preserve (fun s2 => s2 (bhKey b i) = s (bhKey b i)) _ _ s rfl ?_
  intro s2 e _ hs2
  rw [snapUpd_ne _ _ _ _ (fun hkk => hne (bhKey_inj b eb i e.1 hkk).1.symm)]
  exact hs2

theorem snapAddOpenHeads_not_key (ohs : List (Bytes × List Bytes))
    (n2r : Bytes → Bytes) (s : Bytes → Option SnapBranch) (b : Bytes)
    (i : Nat) (hb : b ∉ ohs.map Prod.fst) :
    snapAddOpenHeads ohs n2r s (bhKey b i) = s (bhKey b i) := by
  unfold snapAddOpenHeads
  refine foldl_preserve (fun s2 => s2 (bhKey b i) = s (bhKey b i)) _ ohs s rfl ?_
  intro s2 e he hs2
  rw [innerOpen_other n2r b e.1 e.2 s2 i
    (fun hkk => hb (hkk ▸ List.mem_map.mpr ⟨e, he, rfl⟩))]
  exact hs2

def openLookup (o : Option (List Bytes)) (n2r : Bytes → Bytes)
    (dflt : Option SnapBranch) (i : Nat) : Option SnapBranch :=
  match o with
  | some hs =>
    if i < hs.length then some ⟨n2r (hs.getD i []), .revision⟩ else dflt
  | none => dflt

theorem snapAddOpenHeads_lookup (ohs : List (Bytes × List Bytes))
    (n2r : Bytes → Bytes) (s : Bytes → Option SnapBranch) (b : Bytes)
    (i : Nat) (hnd : (ohs.map Prod.fst).Nodup) :
    snapAddOpenHeads ohs n2r s (bhKey b i) =
      openLookup (alGet ohs b) n2r (s (bhKey b i)) i := by
  induction ohs generalizing s with
  | nil => rfl
  | cons e tl ih =>
    rcases e with ⟨eb, ehs⟩
    rw [List.map_cons, List.nodup_cons] at hnd
    show snapAddOpenHeads tl n2r
      ((ehs.enum).foldl (fun s2 ih =>
        snapUpd s2 (bhKey eb ih.1) ⟨n2r ih.2, .revision⟩) s) (bhKey b i) = _
    by_cases he : eb = b
    · subst he
      rw [snapAddOpenHeads_not_key tl n2r _ eb i hnd.1]
      rw [show (ehs.enum) = ehs.enumFrom 0 from rfl]
      rw [innerOpen_from n2r eb ehs 0 s i]
      rw [show alGet ((eb, ehs) :: tl) eb = some ehs from by
        rw [alGet, if_pos rfl]]
      simp only [openLookup]
      by_cases hi : i < ehs.length
      · rw [if_pos (show 0 ≤ i ∧ i < 0 + ehs.length from by omega),
          if_pos hi, show i - 0 = i from rfl]
      · rw [if_neg (show ¬(0 ≤ i ∧ i < 0 + ehs.length) from by omega),
          if_neg hi]
    · rw [ih _ hnd.2]
      rw [show alGet ((eb, ehs) :: tl) b = alGet tl b from by
        rw [alGet, if_neg he]]
      cases hg : alGet tl b with
      | some hs3 =>
        simp only [openLookup]
        by_cases hi : i < hs3.length
        · rw [if_pos hi, if_pos hi]
        · rw [if_neg hi, if_neg hi]
          exact innerOpen_other n2r b eb ehs s i he
      | none =>
        simp only [openLookup]
        exact innerOpen_other n2r b eb ehs s i he

/-- dict get on repo.branchmap. -/
def hGet (m : List (Bytes × List HeadCtx)) (k : Bytes) :
    Option (List HeadCtx) :=
  match m with
  | [] => none
  | (k2, v) :: rest => if k2 = k then some v else hGet rest k

/-- The open non-ignored head nodes of a head list, in list order. -/
def openFilter (ign : Finset Nat) (hs : List HeadCtx) : List Bytes :=
  (hs.filter (fun h => !decide (h.rev ∈ ign) && !h.closes)).map HeadCtx.node

/-- The open non-ignored heads of a branch, sorted by node id ascending. -/
def openOf (repo : RepoModel) (ign : Finset Nat) (b : Bytes) : List Bytes :=
  openFilter ign (sortByNode ((hGet repo.branchmap b).getD []))

/-- defaultdict value after appending a run of nodes. -/
def appOpt (o : Option (List Bytes)) (l : List Bytes) : Option (List Bytes) :=
  match o with
  | some l0 => some (l0 ++ l)
  | none => if l.isEmpty then none else some l

theorem headStep_ign (ign : Finset Nat) (bn : Bytes) (acc : BranchAcc)
    (h : HeadCtx) (hig : h.rev ∈ ign) : headStep ign bn acc h = acc := by
  unfold headStep
  rw [if_pos hig]

theorem headStep_tips_closed (ign : Finset Nat) (bn : Bytes) (acc : BranchAcc)
    (h : HeadCtx) (hig : h.rev ∉ ign) (hcl : h.closes = true) :
    (headStep ign bn acc h).tips = acc.tips := by
  unfold headStep
  rw [if_neg hig, if_pos hcl]

theorem headStep_tips_open (ign : Finset Nat) (bn : Bytes) (acc : BranchAcc)
    (h : HeadCtx) (hig : h.rev ∉ ign) (hcl : h.closes = false) :
    (headStep ign bn acc h).tips =
      if pyFalsy (bGet acc.tips bn) then bSet acc.tips bn h.node
      else acc.tips := by
  unfold headStep
  rw [if_neg hig, if_neg (by rw [hcl]; exact Bool.false_ne_true)]

theorem headStep_open_closed (ign : Finset Nat) (bn : Bytes) (acc : BranchAcc)
    (h : HeadCtx) (hig : h.rev ∉ ign) (hcl : h.closes = true) :
    (headStep ign bn acc h).openHeads = acc.openHeads := by
  unfold headStep
  rw [if_neg hig, if_pos hcl]

theorem headStep_open_open (ign : Finset Nat) (bn : Bytes) (acc : BranchAcc)
    (h : HeadCtx) (hig : h.rev ∉ ign) (hcl : h.closes = false) :
    (headStep ign bn acc h).openHeads = alAppend acc.openHeads bn h.node := by
  unfold headStep
  rw [if_neg hig, if_neg (by rw [hcl]; exact Bool.false_ne_true)]

theorem openFilter_nil (ign : Finset Nat) : openFilter ign [] = [] := rfl

theorem openFilter_cons_ign (ign : Finset Nat) (h : HeadCtx)
    (tl : List HeadCtx) (hig : h.rev ∈ ign) :
    openFilter ign (h :: tl) = openFilter ign tl := by
  unfold openFilter
  rw [List.filter_cons_of_neg (by simp [hig])]

theorem openFilter_cons_closed (ign : Finset Nat) (h : HeadCtx)
    (tl : List HeadCtx) (hcl : h.closes = true) :
    openFilter ign (h :: tl) = openFilter ign tl := by
  unfold openFilter
  rw [List.filter_cons_of_neg (by simp [hcl])]

theorem openFilter_cons_open (ign : Finset Nat) (h : HeadCtx)
    (tl : List HeadCtx) (hig : h.rev ∉ ign) (hcl : h.closes = false) :
    openFilter ign (h :: tl) = h.node :: openFilter ign tl := by
  unfold openFilter
  rw [List.filter_cons_of_pos (by simp [hig, hcl]), List.map_cons]

/-- The inner head loop: the branch tip it leaves is the first open
non-ignored node (nonempty node ids block later pyFalsy overwrites). -/
theorem headsFold_tips (ign : Finset Nat) (bn : Bytes) :
    ∀ (hs : List HeadCtx) (acc : BranchAcc),
    (∀ h ∈ hs, h.node ≠ []) →
    bGet ((hs.foldl (headStep ign bn) acc)).tips bn =
      if pyFalsy (bGet acc.tips bn) then
        match (openFilter ign hs).head? with
        | some n => some n
        | none => bGet acc.tips bn
      else bGet acc.tips bn := by
  intro hs
  induction hs with
  | nil =>
    intro acc _
    show bGet acc.tips bn = _
    by_cases hp : pyFalsy (bGet acc.tips bn) = true
    · rw [if_pos hp]
      rfl
    · rw [if_neg hp]
  | cons h tl ih =>
    intro acc hne
    have hne2 : ∀ x ∈ tl, x.node ≠ [] :=
      fun x hx => hne x (List.mem_cons_of_mem h hx)
    rw [List.foldl_cons, ih (headStep ign bn acc h) hne2]
    by_cases hig : h.rev ∈ ign
    · rw [headStep_ign ign bn acc h hig, openFilter_cons_ign ign h tl hig]
    · cases hcl : h.closes with
      | true =>
        rw [headStep_tips_closed ign bn acc h hig hcl,
          openFilter_cons_closed ign h tl hcl]
      | false =>
        rw [headStep_tips_open ign bn acc h hig hcl,
          openFilter_cons_open ign h tl hig hcl]
        by_cases hp : pyFalsy (bGet acc.tips bn) = true
        · rw [if_pos hp, if_pos hp, bGet_bSet_self]
          have hnf : pyFalsy (some h.node) = false := by
            cases hn : h.node with
            | nil => exact absurd hn (hne h (List.mem_cons_self h tl))
            | cons c cs => rfl
          rw [hnf, if_neg Bool.false_ne_true]
          rfl
        · rw [if_neg hp, if_neg hp, if_neg hp]

/-- The inner head loop appends the open non-ignored nodes, in order, to the
open-heads entry of the branch. -/
theorem headsFold_open (ign : Finset Nat) (bn : Bytes) :
    ∀ (hs : List HeadCtx) (acc : BranchAcc),
    alGet ((hs.foldl (headStep ign bn) acc)).openHeads bn =
      appOpt (alGet acc.openHeads bn) (openFilter ign hs) := by
  intro hs
  induction hs with
  | nil =>
    intro acc
    show alGet acc.openHeads bn = appOpt (alGet acc.openHeads bn) []
    cases hg : alGet acc.openHeads bn with
    | some l0 =>
      show some l0 = some (l0 ++ [])
      rw [List.append_nil]
    | none => rfl
  | cons h tl ih =>
    intro acc
    rw [List.foldl_cons, ih (headStep ign bn acc h)]
    by_cases hig : h.rev ∈ ign
    · rw [headStep_ign ign bn acc h hig, openFilter_cons_ign ign h tl hig]
    · cases hcl : h.closes with
      | true =>
        rw [headStep_open_closed ign bn acc h hig hcl,
          openFilter_cons_closed ign h tl hcl]
      | false =>
        rw [headStep_open_open ign bn acc h hig hcl,
          openFilter_cons_open ign h tl hig hcl,
          alGet_alAppend_self]
        cases hg : alGet acc.openHeads bn with
        | some l0 =>
          show some (l0 ++ [h.node] ++ openFilter ign tl) =
            some (l0 ++ (h.node :: openFilter ign tl))
          rw [List.append_assoc, List.singleton_append]
        | none =>
          show some ([] ++ [h.node] ++ openFilter ign tl) =
            appOpt none (h.node :: openFilter ign tl)
          rw [List.nil_append, List.singleton_append]
          rfl

theorem bSet_keys (m : List (Bytes × Bytes)) (k v : Bytes) :
    (bSet m k v).map Prod.fst = m.map Prod.fst ∨
    (bSet m k v).map Prod.fst = m.map Prod.fst ++ [k] := by
  induction m with
  | nil => exact Or.inr (by simp [bSet])
  | cons e tl ih =>
    rcases e with ⟨k2, v2⟩
    by_cases hk : k2 = k
    · rw [bSet, if_pos hk]
      exact Or.inl (by simp)
    · rw [bSet, if_neg hk]
      rcases ih with h | h
      · exact Or.inl (by simp [h])
      · exact Or.inr (by simp [h])

theorem bSet_keys_nodup (m : List (Bytes × Bytes)) (k v : Bytes)
    (hnd : (m.map Prod.fst).Nodup) : ((bSet m k v).map Prod.fst).Nodup := by
  induction m with
  | nil => simp [bSet]
  | cons e tl ih =>
    rcases e with ⟨k2, v2⟩
    rw [List.map_cons, List.nodup_cons] at hnd
    by_cases hk : k2 = k
    · rw [bSet, if_pos hk]
      rw [List.map_cons, List.nodup_cons]
      exact hnd
    · rw [bSet, if_neg hk]
      rw [List.map_cons, List.nodup_cons]
      refine ⟨?_, ih hnd.2⟩
      intro hmem
      rcases bSet_keys tl k v with h | h
      · rw [h] at hmem
        exact hnd.1 hmem
      · rw [h] at hmem
        rcases List.mem_append.mp hmem with h2 | h2
        · exact hnd.1 h2
        · exact hk (List.mem_singleton.mp h2)

/-- headStep only touches the tips entry of its own branch. -/
theorem headStep_tips_other (ign : Finset Nat) (bn : Bytes) (acc : BranchAcc)
    (h : HeadCtx) (b : Bytes) (hne : bn ≠ b) :
    bGet (headStep ign bn acc h).tips b = bGet acc.tips b := by
  by_cases hig : h.rev ∈ ign
  · rw [headStep_ign ign bn acc h hig]
  · cases hcl : h.closes with
    | true => rw [headStep_tips_closed ign bn acc h hig hcl]
    | false =>
      rw [headStep_tips_open ign bn acc h hig hcl]
      by_cases hp : pyFalsy (bGet acc.tips bn) = true
      · rw [if_pos hp, bGet_bSet_ne _ _ _ _ (fun hh => hne hh.symm)]
      · rw [if_neg hp]

/-- headStep only touches the open-heads entry of its own branch. -/
theorem headStep_open_other (ign : Finset Nat) (bn : Bytes) (acc : BranchAcc)
    (h : HeadCtx) (b : Bytes) (hne : bn ≠ b) :
    alGet (headStep ign bn acc h).openHeads b = alGet acc.openHeads b := by
  by_cases hig : h.rev ∈ ign
  · rw [headStep_ign ign bn acc h hig]
  · cases hcl : h.closes with
    | true => rw [headStep_open_closed ign bn acc h hig hcl]
    | false =>
      rw [headStep_open_open ign bn acc h hig hcl,
        alGet_alAppend_ne _ _ _ _ (fun hh => hne hh.symm)]

theorem branchStep_tips_other (ign : Finset Nat) (acc : BranchAcc)
    (e : Bytes × List HeadCtx) (b : Bytes) (hne : e.1 ≠ b) :
    bGet (branchStep ign acc e).tips b = bGet acc.tips b := by
  unfold branchStep
  refine foldl_preserve (fun a => bGet a.tips b = bGet acc.tips b) _ _ acc
    rfl ?_
  intro a2 h _ ha2
  rw [headStep_tips_other ign e.1 a2 h b hne]
  exact ha2

theorem branchStep_open_other (ign : Finset Nat) (acc : BranchAcc)
    (e : Bytes × List HeadCtx) (b : Bytes) (hne : e.1 ≠ b) :
    alGet (branchStep ign acc e).openHeads b = alGet acc.openHeads b := by
  unfold branchStep
  refine foldl_preserve (fun a => alGet a.openHeads b = alGet acc.openHeads b)
    _ _ acc rfl ?_
  intro a2 h _ ha2
  rw [headStep_open_other ign e.1 a2 h b hne]
  exact ha2

/-- headStep keeps the tips and open-heads key lists duplicate free. -/
theorem headStep_nodup (ign : Finset Nat) (bn : Bytes) (acc : BranchAcc)
    (h : HeadCtx) (ht : (acc.tips.map Prod.fst).Nodup)
    (ho : (acc.openHeads.map Prod.fst).Nodup) :
    ((headStep ign bn acc h).tips.map Prod.fst).Nodup ∧
      ((headStep ign bn acc h).openHeads.map Prod.fst).Nodup := by
  by_cases hig : h.rev ∈ ign
  · rw [headStep_ign ign bn acc h hig]
    exact ⟨ht, ho⟩
  · cases hcl : h.closes with
    | true =>
      rw [headStep_tips_closed ign bn acc h hig hcl,
        headStep_open_closed ign bn acc h hig hcl]
      exact ⟨ht, ho⟩
    | false =>
      rw [headStep_tips_open ign bn acc h hig hcl,
        headStep_open_open ign bn acc h hig hcl]
      refine ⟨?_, alAppend_keys_nodup _ _ _ ho⟩
      by_cases hp : pyFalsy (bGet acc.tips bn) = true
      · rw [if_pos hp]
        exact bSet_keys_nodup _ _ _ ht
      · rw [if_neg hp]
        exact ht

theorem branchStep_nodup (ign : Finset Nat) (acc : BranchAcc)
    (e : Bytes × List HeadCtx) (ht : (acc.tips.map Prod.fst).Nodup)
    (ho : (acc.openHeads.map Prod.fst).Nodup) :
    ((branchStep ign acc e).tips.map Prod.fst).Nodup ∧
      ((branchStep ign acc e).openHeads.map Prod.fst).Nodup := by
  unfold branchStep
  refine foldl_preserve
    (fun a => (a.tips.map Prod.fst).Nodup ∧ (a.openHeads.map Prod.fst).Nodup)
    _ _ acc ⟨ht, ho⟩ ?_
  intro a2 h _ ha2
  exact headStep_nodup ign e.1 a2 h ha2.1 ha2.2

/-- The whole branchmap fold keeps the key lists duplicate free. -/
theorem branchFold_nodup (ign : Finset Nat) (bm : List (Bytes × List HeadCtx)) :
    (((bm.foldl (branchStep ign) (⟨[], [], []⟩ : BranchAcc)).tips.map
        Prod.fst).Nodup ∧
      ((bm.foldl (branchStep ign) (⟨[], [], []⟩ : BranchAcc)).openHeads.map
        Prod.fst).Nodup) := by
  refine foldl_preserve
    (fun (a : BranchAcc) =>
      (a.tips.map Prod.fst).Nodup ∧ (a.openHeads.map Prod.fst).Nodup)
    _ _ _ ⟨List.nodup_nil, List.nodup_nil⟩ ?_
  intro a2 e _ ha2
  exact branchStep_nodup ign a2 e ha2.1 ha2.2

theorem mem_insertByNode (a h : HeadCtx) (l : List HeadCtx)
    (hm : a ∈ insertByNode h l) : a = h ∨ a ∈ l := by
  induction l with
  | nil =>
    rw [insertByNode] at hm
    exact Or.inl (List.mem_singleton.mp hm)
  | cons h2 rest ih =>
    rw [insertByNode] at hm
    by_cases hle : lexLe h.node h2.node = true
    · rw [if_pos hle] at hm
      rcases List.mem_cons.mp hm with h3 | h3
      · exact Or.inl h3
      · exact Or.inr h3
    · rw [if_neg hle] at hm
      rcases List.mem_cons.mp hm with h3 | h3
      · exact Or.inr (h3 ▸ List.mem_cons_self _ _)
      · rcases ih h3 with h4 | h4
        · exact Or.inl h4
        · exact Or.inr (List.mem_cons_of_mem _ h4)

theorem mem_sortByNode (a : HeadCtx) (l : List HeadCtx)
    (hm : a ∈ sortByNode l) : a ∈ l := by
  induction l with
  | nil => exact absurd hm (by rw [sortByNode]; exact List.not_mem_nil a)
  | cons h rest ih =>
    rw [sortByNode] at hm
    rcases mem_insertByNode a h (sortByNode rest) hm with h2 | h2
    · exact h2 ▸ List.mem_cons_self _ _
    · exact List.mem_cons_of_mem _ (ih h2)

/-- Branches absent from the rest of the branchmap keep their entries. -/
theorem branchFold_other (ign : Finset Nat) (b : Bytes)
    (bm : List (Bytes × List HeadCtx)) (acc : BranchAcc)
    (hb : b ∉ bm.map Prod.fst) :
    bGet ((bm.foldl (branchStep ign) acc)).tips b = bGet acc.tips b ∧
      alGet ((bm.foldl (branchStep ign) acc)).openHeads b =
        alGet acc.openHeads b := by
  refine foldl_preserve
    (fun a => bGet a.tips b = bGet acc.tips b ∧
      alGet a.openHeads b = alGet acc.openHeads b) _ _ acc ⟨rfl, rfl⟩ ?_
  intro a2 e he ha2
  have hne : e.1 ≠ b := fun hh => hb (hh ▸ List.mem_map.mpr ⟨e, he, rfl⟩)
  rw [branchStep_tips_other ign a2 e b hne,
    branchStep_open_other ign a2 e b hne]
  exact ha2

/-- The branchmap fold from the empty accumulator: the tip of each branch is
its first open head by node order, and the open-heads entry collects all of
its open heads in node order. -/
theorem branchFold_lookup (ign : Finset Nat) (b : Bytes) :
    ∀ (bm : List (Bytes × List HeadCtx)) (acc : BranchAcc),
    (bm.map Prod.fst).Nodup →
    (∀ e ∈ bm, ∀ h ∈ e.2, h.node ≠ []) →
    bGet acc.tips b = none →
    alGet acc.openHeads b = none →
    bGet ((bm.foldl (branchStep ign) acc)).tips b =
        (openFilter ign (sortByNode ((hGet bm b).getD []))).head? ∧
      alGet ((bm.foldl (branchStep ign) acc)).openHeads b =
        appOpt none (openFilter ign (sortByNode ((hGet bm b).getD []))) := by
  intro bm
  induction bm with
  | nil =>
    intro acc _ _ ht ho
    exact ⟨ht, ho⟩
  | cons e bm2 ih =>
    intro acc hnd hne ht ho
    rcases e with ⟨eb, ehs⟩
    rw [List.map_cons, List.nodup_cons] at hnd
    rw [List.foldl_cons]
    by_cases hkey : eb = b
    · subst hkey
      have hother := branchFold_other ign eb bm2
        (branchStep ign acc (eb, ehs)) hnd.1
      have hsort : ∀ h ∈ sortByNode ehs, h.node ≠ [] :=
        fun h hh => hne (eb, ehs) (List.mem_cons_self _ _) h
          (mem_sortByNode h ehs hh)
      have htip : bGet (branchStep ign acc (eb, ehs)).tips eb =
          (openFilter ign (sortByNode ehs)).head? := by
        show bGet ((sortByNode ehs).foldl (headStep ign eb) acc).tips eb = _
        rw [headsFold_tips ign eb (sortByNode ehs) acc hsort, ht]
        rw [if_pos (show pyFalsy none = true from rfl)]
        cases (openFilter ign (sortByNode ehs)).head? with
        | some n => rfl
        | none => rfl
      have hopen : alGet (branchStep ign acc (eb, ehs)).openHeads eb =
          appOpt none (openFilter ign (sortByNode ehs)) := by
        show alGet ((sortByNode ehs).foldl (headStep ign eb) acc).openHeads
          eb = _
        rw [headsFold_open ign eb (sortByNode ehs) acc, ho]
      rw [hother.1, hother.2, htip, hopen]
      rw [show hGet ((eb, ehs) :: bm2) eb = some ehs from by
        rw [hGet, if_pos rfl]]
      exact ⟨rfl, rfl⟩
    · have ht2 : bGet (branchStep ign acc (eb, ehs)).tips b = none := by
        rw [branchStep_tips_other ign acc (eb, ehs) b hkey]
        exact ht
      have ho2 : alGet (branchStep ign acc (eb, ehs)).openHeads b = none := by
        rw [branchStep_open_other ign acc (eb, ehs) b hkey]
        exact ho
      have hne2 : ∀ e2 ∈ bm2, ∀ h ∈ e2.2, h.node ≠ [] :=
        fun e2 he2 => hne e2 (List.mem_cons_of_mem _ he2)
      rw [show hGet ((eb, ehs) :: bm2) b = hGet bm2 b from by
        rw [hGet, if_neg hkey]]
      exact ih (branchStep ign acc (eb, ehs)) hnd.2 hne2 ht2 ho2

theorem head_isSome_ne (l : List Bytes) : l.head?.isSome = true ↔ l ≠ [] := by
  cases l with
  | nil => simp
  | cons x xs => simp

/-- The tips dict of branching_info maps each branch to its first open
non-ignored head in node order (absent branches and all-closed or
all-ignored branches get no tip). -/
theorem branching_info_tips_lookup (repo : RepoModel) (ign : Finset Nat)
    (b : Bytes) (hnd : (repo.branchmap.map Prod.fst).Nodup)
    (hne : ∀ e ∈ repo.branchmap, ∀ h ∈ e.2, h.node ≠ []) :
    bGet (branching_info repo ign).tips b = (openOf repo ign b).head? := by
  show bGet (repo.branchmap.foldl (branchStep ign)
    (⟨[], [], []⟩ : BranchAcc)).tips b = _
  exact (branchFold_lookup ign b repo.branchmap ⟨[], [], []⟩ hnd hne rfl
    rfl).1

/-- The open-heads dict of branching_info keeps exactly the branches with
two or more open heads, listing their open heads in node order. -/
theorem branching_info_open_lookup (repo : RepoModel) (ign : Finset Nat)
    (b : Bytes) (hnd : (repo.branchmap.map Prod.fst).Nodup)
    (hne : ∀ e ∈ repo.branchmap, ∀ h ∈ e.2, h.node ≠ []) :
    alGet (branching_info repo ign).openHeads b =
      if 2 ≤ (openOf repo ign b).length then some (openOf repo ign b)
      else none := by
  have hanodup := (branchFold_nodup ign repo.branchmap).2
  have hval := (branchFold_lookup ign b repo.branchmap ⟨[], [], []⟩ hnd hne
    rfl rfl).2
  show alGet ((repo.branchmap.foldl (branchStep ign)
    (⟨[], [], []⟩ : BranchAcc)).openHeads.filter
      (fun e => e.2.length ≠ 1)) b = _
  rw [alGet_filter _ _ _ hanodup, hval]
  rw [show openFilter ign (sortByNode ((hGet repo.branchmap b).getD [])) =
    openOf repo ign b from rfl]
  cases hF : openOf repo ign b with
  | nil =>
    rw [if_neg (by simp)]
    rfl
  | cons x xs =>
    rw [show appOpt none (x :: xs) = some (x :: xs) from rfl]
    show (if decide ((x :: xs).length ≠ 1) = true then some (x :: xs)
      else none) = _
    by_cases hlen : (x :: xs).length = 1
    · rw [if_neg (by simp [hlen]), if_neg (by simp [hlen])]
    · rw [if_pos (show decide ((x :: xs).length ≠ 1) = true from by
          rw [decide_eq_true_eq]
          exact hlen),
        if_pos (by simp only [List.length_cons] at hlen ⊢; omega)]

theorem lexLe_cons_iff (a b : Nat) (as bs : Bytes) :
    lexLe (a :: as) (b :: bs) = true ↔
      a < b ∨ (a = b ∧ lexLe as bs = true) := by
  show (if a < b then true else if a = b then lexLe as bs else false) =
    true ↔ _
  by_cases h1 : a < b
  · rw [if_pos h1]
    simp [h1]
  · rw [if_neg h1]
    by_cases h2 : a = b
    · rw [if_pos h2]
      simp [h1, h2]
    · rw [if_neg h2]
      simp [h1, h2]

theorem lexLe_total : ∀ (x y : Bytes), lexLe x y = true ∨ lexLe y x = true := by
  intro x
  induction x with
  | nil => intro y; exact Or.inl rfl
  | cons a as ih =>
    intro y
    cases y with
    | nil => exact Or.inr rfl
    | cons b bs =>
      by_cases h1 : a < b
      · exact Or.inl ((lexLe_cons_iff a b as bs).mpr (Or.inl h1))
      · by_cases h2 : a = b
        · rcases ih bs with h | h
          · exact Or.inl ((lexLe_cons_iff a b as bs).mpr (Or.inr ⟨h2, h⟩))
          · exact Or.inr ((lexLe_cons_iff b a bs as).mpr
              (Or.inr ⟨h2.symm, h⟩))
        · exact Or.inr ((lexLe_cons_iff b a bs as).mpr (Or.inl (by omega)))

theorem lexLe_trans : ∀ (x y z : Bytes), lexLe x y = true →
    lexLe y z = true → lexLe x z = true := by
  intro x
  induction x with
  | nil => intro y z _ _; rfl
  | cons a as ih =>
    intro y z hxy hyz
    cases y with
    | nil => exact absurd hxy (by simp [lexLe])
    | cons b bs =>
      cases z with
      | nil => exact absurd hyz (by simp [lexLe])
      | cons c cs =>
        rcases (lexLe_cons_iff a b as bs).mp hxy with h1 | ⟨h1, h1r⟩
        · rcases (lexLe_cons_iff b c bs cs).mp hyz with h2 | ⟨h2, h2r⟩
          · exact (lexLe_cons_iff a c as cs).mpr (Or.inl (by omega))
          · exact (lexLe_cons_iff a c as cs).mpr (Or.inl (by omega))
        · rcases (lexLe_cons_iff b c bs cs).mp hyz with h2 | ⟨h2, h2r⟩
          · exact (lexLe_cons_iff a c as cs).mpr (Or.inl (by omega))
          · exact (lexLe_cons_iff a c as cs).mpr
              (Or.inr ⟨by omega, ih bs cs h1r h2r⟩)

theorem insertByNode_pairwise (h : HeadCtx) (l : List HeadCtx)
    (hp : l.Pairwise (fun x y => lexLe x.node y.node = true)) :
    (insertByNode h l).Pairwise (fun x y => lexLe x.node y.node = true) := by
  induction l with
  | nil =>
    rw [insertByNode]
    exact List.pairwise_singleton _ _
  | cons h2 rest ih =>
    rw [List.pairwise_cons] at hp
    rw [insertByNode]
    by_cases hle : lexLe h.node h2.node = true
    · rw [if_pos hle, List.pairwise_cons]
      refine ⟨?_, List.pairwise_cons.mpr hp⟩
      intro y hy
      rcases List.mem_cons.mp hy with h3 | h3
      · rw [h3]
        exact hle
      · exact lexLe_trans h.node h2.node y.node hle (hp.1 y h3)
    · rw [if_neg hle, List.pairwise_cons]
      refine ⟨?_, ih hp.2⟩
      intro y hy
      rcases mem_insertByNode y h rest hy with h3 | h3
      · rcases lexLe_total h.node h2.node with h4 | h4
        · exact absurd h4 hle
        · rw [h3]
          exact h4
      · exact hp.1 y h3

theorem sortByNode_sorted (l : List HeadCtx) :
    (sortByNode l).Pairwise (fun x y => lexLe x.node y.node = true) := by
  induction l with
  | nil =>
    rw [sortByNode]
    exact List.Pairwise.nil
  | cons h rest ih =>
    rw [sortByNode]
    exact insertByNode_pairwise h _ ih

/-- The HEAD entry of the built snapshot is exactly the alias computed by
branching_info (every other branch name differs from HEAD). -/
theorem buildSnapshot_head (bi : BranchingInfo) (tags : List (Bytes × Bytes))
    (saved : List Bytes) (n2r : Bytes → Bytes)
    (relId : Bytes → Bytes → Bytes) :
    buildSnapshotBranches bi tags saved n2r relId headNameBytes =
      match bi.defaultBranchAlias with
      | some a => some ⟨a, .alias⟩
      | none => none := by
  have hs5 : snapAddClosedHeads bi.closedHeads n2r
      (snapAddOpenHeads bi.openHeads n2r
        (snapAddBookmarks bi.bookmarks n2r
          (snapAddTips bi.tips n2r
            (snapAddTags tags saved n2r relId (fun _ => none)))))
      headNameBytes = none := by
    rw [snapAddClosedHeads_ne _ _ _ _ head_ne_bchKey,
      snapAddOpenHeads_ne _ _ _ _ head_ne_bhKey,
      snapAddBookmarks_ne _ _ _ _ head_ne_bmKey,
      snapAddTips_ne _ _ _ _ head_ne_tipKey,
      snapAddTags_ne _ _ _ _ _ _ head_ne_tagKey]
  show (match bi.defaultBranchAlias with
    | some a =>
      snapUpd (snapAddClosedHeads bi.closedHeads n2r
        (snapAddOpenHeads bi.openHeads n2r
          (snapAddBookmarks bi.bookmarks n2r
            (snapAddTips bi.tips n2r
              (snapAddTags tags saved n2r relId (fun _ => none))))))
        headNameBytes ⟨a, SnapTargetType.alias⟩
    | none =>
      snapAddClosedHeads bi.closedHeads n2r
        (snapAddOpenHeads bi.openHeads n2r
          (snapAddBookmarks bi.bookmarks n2r
            (snapAddTips bi.tips n2r
              (snapAddTags tags saved n2r relId (fun _ => none))))))
    headNameBytes = _
  cases ha : bi.defaultBranchAlias with
  | some a =>
    show snapUpd (snapAddClosedHeads bi.closedHeads n2r
      (snapAddOpenHeads bi.openHeads n2r
        (snapAddBookmarks bi.bookmarks n2r
          (snapAddTips bi.tips n2r
            (snapAddTags tags saved n2r relId (fun _ => none))))))
      headNameBytes ⟨a, SnapTargetType.alias⟩ headNameBytes =
      some ⟨a, SnapTargetType.alias⟩
    exact snapUpd_self _ _ _
  | none => exact hs5

/-- Every non-HEAD branch name of the built snapshot also differs from the
branch-heads name of branch b and index i:
the snapshot's branch-heads entries come only from the open-heads loop. -/
theorem buildSnapshot_bhKey (bi : BranchingInfo) (tags : List (Bytes × Bytes))
    (saved : List Bytes) (n2r : Bytes → Bytes)
    (relId : Bytes → Bytes → Bytes) (b : Bytes) (i : Nat)
    (hnd : (bi.openHeads.map Prod.fst).Nodup) :
    buildSnapshotBranches bi tags saved n2r relId (bhKey b i) =
      openLookup (alGet bi.openHeads b) n2r none i := by
  have hs5 : snapAddClosedHeads bi.closedHeads n2r
      (snapAddOpenHeads bi.openHeads n2r
        (snapAddBookmarks bi.bookmarks n2r
          (snapAddTips bi.tips n2r
            (snapAddTags tags saved n2r relId (fun _ => none)))))
      (bhKey b i) = openLookup (alGet bi.openHeads b) n2r none i := by
    rw [snapAddClosedHeads_ne _ _ _ _ (fun b2 i2 => bhKey_ne_bchKey b b2 i i2),
      snapAddOpenHeads_lookup bi.openHeads n2r _ b i hnd,
      snapAddBookmarks_ne _ _ _ _ (fun b2 => bhKey_ne_bmKey b b2 i),
      snapAddTips_ne _ _ _ _ (fun b2 => bhKey_ne_tipKey b b2 i),
      snapAddTags_ne _ _ _ _ _ _ (fun t => bhKey_ne_tagKey b t i)]
  show (match bi.defaultBranchAlias with
    | some a =>
      snapUpd (snapAddClosedHeads bi.closedHeads n2r
        (snapAddOpenHeads bi.openHeads n2r
          (snapAddBookmarks bi.bookmarks n2r
            (snapAddTips bi.tips n2r
              (snapAddTags tags saved n2r relId (fun _ => none))))))
        headNameBytes ⟨a, SnapTargetType.alias⟩
    | none =>
      snapAddClosedHeads bi.closedHeads n2r
        (snapAddOpenHeads bi.openHeads n2r
          (snapAddBookmarks bi.bookmarks n2r
            (snapAddTips bi.tips n2r
              (snapAddTags tags saved n2r relId (fun _ => none))))))
    (bhKey b i) = _
  cases ha : bi.defaultBranchAlias with
  | some a =>
    show snapUpd (snapAddClosedHeads bi.closedHeads n2r
      (snapAddOpenHeads bi.openHeads n2r
        (snapAddBookmarks bi.bookmarks n2r
          (snapAddTips bi.tips n2r
            (snapAddTags tags saved n2r relId (fun _ => none))))))
      headNameBytes ⟨a, SnapTargetType.alias⟩ (bhKey b i) = _
    rw [snapUpd_ne _ _ _ _ (bhKey_ne_head b i)]
    exact hs5
  | none => exact hs5

/-- The branch-tip entry of the built snapshot for branch b is exactly the
tips entry computed by branching_info. -/
theorem buildSnapshot_tipKey (bi : BranchingInfo) (tags : List (Bytes × Bytes))
    (saved : List Bytes) (n2r : Bytes → Bytes)
    (relId : Bytes → Bytes → Bytes) (b : Bytes)
    (hnd : (bi.tips.map Prod.fst).Nodup) :
    buildSnapshotBranches bi tags saved n2r relId (tipKey b) =
      match bGet bi.tips b with
      | some n => some ⟨n2r n, .revision⟩
      | none => none := by
  have hs2 : snapAddTips bi.tips n2r
      (snapAddTags tags saved n2r relId (fun _ => none)) (tipKey b) =
      match bGet bi.tips b with
      | some n => some ⟨n2r n, .revision⟩
      | none => none := by
    rw [snapAddTips_lookup bi.tips n2r _ b hnd]
    cases hg : bGet bi.tips b with
    | some n => rfl
    | none =>
      rw [snapAddTags_ne _ _ _ _ _ _ (tipKey_ne_tagKey b)]
  have hs5 : snapAddClosedHeads bi.closedHeads n2r
      (snapAddOpenHeads bi.openHeads n2r
        (snapAddBookmarks bi.bookmarks n2r
          (snapAddTips bi.tips n2r
            (snapAddTags tags saved n2r relId (fun _ => none)))))
      (tipKey b) =
      match bGet bi.tips b with
      | some n => some ⟨n2r n, .revision⟩
      | none => none := by
    rw [snapAddClosedHeads_ne _ _ _ _ (fun b2 i2 => tipKey_ne_bchKey b b2 i2),
      snapAddOpenHeads_ne _ _ _ _ (fun b2 i2 => tipKey_ne_bhKey b b2 i2),
      snapAddBookmarks_ne _ _ _ _ (tipKey_ne_bmKey b)]
    exact hs2
  show (match bi.defaultBranchAlias with
    | some a =>
      snapUpd (snapAddClosedHeads bi.closedHeads n2r
        (snapAddOpenHeads bi.openHeads n2r
          (snapAddBookmarks bi.bookmarks n2r
            (snapAddTips bi.tips n2r
              (snapAddTags tags saved n2r relId (fun _ => none))))))
        headNameBytes ⟨a, SnapTargetType.alias⟩
    | none =>
      snapAddClosedHeads bi.closedHeads n2r
        (snapAddOpenHeads bi.openHeads n2r
          (snapAddBookmarks bi.bookmarks n2r
            (snapAddTips bi.tips n2r
              (snapAddTags tags saved n2r relId (fun _ => none))))))
    (tipKey b) = _
  cases ha : bi.defaultBranchAlias with
  | some a =>
    show snapUpd (snapAddClosedHeads bi.closedHeads n2r
      (snapAddOpenHeads bi.openHeads n2r
        (snapAddBookmarks bi.bookmarks n2r
          (snapAddTips bi.tips n2r
            (snapAddTags tags saved n2r relId (fun _ => none))))))
      headNameBytes ⟨a, SnapTargetType.alias⟩ (tipKey b) = _
    rw [snapUpd_ne _ _ _ _ (tipKey_ne_head b)]
    exact hs5
  | none => exact hs5

/-- The HEAD alias branching_info resolves: bookmarks/at when the branch of
the @ bookmark's target has an open tip, else branch-tip/default when the
default branch has one, else none. -/
theorem branching_info_alias (repo : RepoModel) (ign : Finset Nat)
    (hnd : (repo.branchmap.map Prod.fst).Nodup)
    (hne : ∀ e ∈ repo.branchmap, ∀ h ∈ e.2, h.node ≠ []) :
    (branching_info repo ign).defaultBranchAlias =
      match bGet repo.bookmarks atBytes with
      | some ab =>
        if (openOf repo ign (repo.nodeBranch ab)).head?.isSome then
          some bookmarksAtBytes
        else if (openOf repo ign defaultBytes).head?.isSome then
          some branchTipDefaultBytes
        else none
      | none =>
        if (openOf repo ign defaultBytes).head?.isSome then
          some branchTipDefaultBytes
        else none := by
  have htips : ∀ b2, bGet (repo.branchmap.foldl (branchStep ign)
      (⟨[], [], []⟩ : BranchAcc)).tips b2 = (openOf repo ign b2).head? :=
    fun b2 => (branchFold_lookup ign b2 repo.branchmap ⟨[], [], []⟩ hnd hne
      rfl rfl).1
  show (match (match bGet repo.bookmarks atBytes with
      | some ab =>
        if (bGet (repo.branchmap.foldl (branchStep ign)
            (⟨[], [], []⟩ : BranchAcc)).tips (repo.nodeBranch ab)).isSome then
          some bookmarksAtBytes
        else none
      | none => none) with
    | some a => some a
    | none =>
      if (bGet (repo.branchmap.foldl (branchStep ign)
          (⟨[], [], []⟩ : BranchAcc)).tips defaultBytes).isSome then
        some branchTipDefaultBytes
      else none) = _
  cases hb : bGet repo.bookmarks atBytes with
  | some ab =>
    show (match (if (bGet (repo.branchmap.foldl (branchStep ign)
          (⟨[], [], []⟩ : BranchAcc)).tips (repo.nodeBranch ab)).isSome then
          some bookmarksAtBytes
        else none : Option Bytes) with
      | some a => some a
      | none =>
        if (bGet (repo.branchmap.foldl (branchStep ign)
            (⟨[], [], []⟩ : BranchAcc)).tips defaultBytes).isSome then
          some branchTipDefaultBytes
        else none) =
      (if (openOf repo ign (repo.nodeBranch ab)).head?.isSome then
        some bookmarksAtBytes
      else if (openOf repo ign defaultBytes).head?.isSome then
        some branchTipDefaultBytes
      else none)
    rw [htips (repo.nodeBranch ab), htips defaultBytes]
    by_cases h1 : (openOf repo ign (repo.nodeBranch ab)).head?.isSome = true
    · rw [if_pos h1, if_pos h1]
    · rw [if_neg h1, if_neg h1]
  | none =>
    show (match (none : Option Bytes) with
      | some a => some a
      | none =>
        if (bGet (repo.branchmap.foldl (branchStep ign)
            (⟨[], [], []⟩ : BranchAcc)).tips defaultBytes).isSome then
          some branchTipDefaultBytes
        else none) =
      (if (openOf repo ign defaultBytes).head?.isSome then
        some branchTipDefaultBytes
      else none)
    rw [htips defaultBytes]

/-- The spec's wording for the HEAD rule, taken literally: the @ bookmark
exists and its target node is one of the branch tip nodes ("lies on a
branch tip"). This definition follows the claim's words, for comparison
with the code's behaviour. -/
def liesOnBranchTip (repo : RepoModel) (ign : Finset Nat) : Bool :=
  match bGet repo.bookmarks atBytes with
  | some ab =>
    (branching_info repo ign).tips.any (fun e => e.2 == fromHex ab)
  | none => false

/-- The C2 sentence as stated, over the embedding: the snapshot's HEAD is
the alias bookmarks/at exactly when the @ bookmark lies on a branch tip,
else branch-tip/default when the default branch has a tip, else absent. -/
def claimC2Stated : Prop :=
  ∀ (repo : RepoModel) (ign : Finset Nat) (tags : List (Bytes × Bytes))
    (saved : List Bytes) (n2r : Bytes → Bytes)
    (relId : Bytes → Bytes → Bytes),
    buildSnapshotBranches (branching_info repo ign) tags saved n2r relId
        headNameBytes =
      if liesOnBranchTip repo ign then
        some ⟨bookmarksAtBytes, .alias⟩
      else if (bGet (branching_info repo ign).tips defaultBytes).isSome then
        some ⟨branchTipDefaultBytes, .alias⟩
      else none

/-- A repository with one open head [2] on branch default and the bookmark
@ pointing at node [9] (hex "09"), which is not a branch tip. -/
def ceRepo : RepoModel :=
  { branchmap := [(defaultBytes, [⟨0, [2], false⟩])],
    bookmarks := [(atBytes, [48, 57])],
    nodeBranch := fun _ => defaultBytes }

/-- C2, counterexample to the claim as stated: branching_info (hgutil.py
line 87) checks that the *branch* of the @ bookmark's target has an open
tip, not that the bookmark's target *is* a branch tip. In ceRepo the @
bookmark points at node [9], which lies on no branch tip ([2] is the only
tip), yet the code still aliases HEAD to bookmarks/@ because the bookmark's
branch (default) has a tip; the claim as stated demands branch-tip/default
instead. -/
theorem head_alias_claim_refuted : ¬claimC2Stated := by
  intro h
  exact absurd (h ceRepo ∅ [] [] (fun _ => []) (fun _ _ => [])) (by decide)

/-- C2 (amended): the snapshot contains a HEAD alias branch iff either the
@ bookmark exists and the branch of its target node has an open tip (HEAD
targets bookmarks/@), or else the default branch has an open tip (HEAD
targets branch-tip/default); otherwise HEAD is omitted. A branch "has an
open tip" when it has at least one open non-ignored head. -/
theorem snapshot_head_alias (repo : RepoModel) (ign : Finset Nat)
    (tags : List (Bytes × Bytes)) (saved : List Bytes) (n2r : Bytes → Bytes)
    (relId : Bytes → Bytes → Bytes)
    (hnd : (repo.branchmap.map Prod.fst).Nodup)
    (hne : ∀ e ∈ repo.branchmap, ∀ h ∈ e.2, h.node ≠ []) :
    buildSnapshotBranches (branching_info repo ign) tags saved n2r relId
        headNameBytes =
      match bGet repo.bookmarks atBytes with
      | some ab =>
        if openOf repo ign (repo.nodeBranch ab) ≠ [] then
          some ⟨bookmarksAtBytes, .alias⟩
        else if openOf repo ign defaultBytes ≠ [] then
          some ⟨branchTipDefaultBytes, .alias⟩
        else none
      | none =>
        if openOf repo ign defaultBytes ≠ [] then
          some ⟨branchTipDefaultBytes, .alias⟩
        else none := by
  rw [buildSnapshot_head, branching_info_alias repo ign hnd hne]
  cases hb : bGet repo.bookmarks atBytes with
  | some ab =>
    show (match (if (openOf repo ign (repo.nodeBranch ab)).head?.isSome then
        some bookmarksAtBytes
      else if (openOf repo ign defaultBytes).head?.isSome then
        some branchTipDefaultBytes
      else none : Option Bytes) with
      | some a => some (⟨a, SnapTargetType.alias⟩ : SnapBranch)
      | none => none) =
      (if openOf repo ign (repo.nodeBranch ab) ≠ [] then
        some (⟨bookmarksAtBytes, SnapTargetType.alias⟩ : SnapBranch)
      else if openOf repo ign defaultBytes ≠ [] then
        some ⟨branchTipDefaultBytes, SnapTargetType.alias⟩
      else none)
    by_cases h1 : (openOf repo ign (repo.nodeBranch ab)).head?.isSome = true
    · rw [if_pos h1, if_pos ((head_isSome_ne _).mp h1)]
    · rw [if_neg h1,
        if_neg (fun hnl => h1 ((head_isSome_ne _).mpr hnl))]
      by_cases h2 : (openOf repo ign defaultBytes).head?.isSome = true
      · rw [if_pos h2, if_pos ((head_isSome_ne _).mp h2)]
      · rw [if_neg h2,
          if_neg (fun hnl => h2 ((head_isSome_ne _).mpr hnl))]
  | none =>
    show (match (if (openOf repo ign defaultBytes).head?.isSome then
        some branchTipDefaultBytes
      else none : Option Bytes) with
      | some a => some (⟨a, SnapTargetType.alias⟩ : SnapBranch)
      | none => none) =
      (if openOf repo ign defaultBytes ≠ [] then
        some (⟨branchTipDefaultBytes, SnapTargetType.alias⟩ : SnapBranch)
      else none)
    by_cases h2 : (openOf repo ign defaultBytes).head?.isSome = true
    · rw [if_pos h2, if_pos ((head_isSome_ne _).mp h2)]
    · rw [if_neg h2,
        if_neg (fun hnl => h2 ((head_isSome_ne _).mpr hnl))]

/-- The amended HEAD rule checked on ceRepo: the bookmark's branch has a
tip, so HEAD aliases bookmarks/@ even though the bookmark is on no tip. -/
theorem snapshot_head_alias_witness :
    buildSnapshotBranches (branching_info ceRepo ∅) [] [] (fun _ => [])
        (fun _ _ => []) headNameBytes =
      some ⟨bookmarksAtBytes, SnapTargetType.alias⟩ := by
  rw [snapshot_head_alias ceRepo ∅ [] [] (fun _ => []) (fun _ _ => [])
    (by decide) (by decide)]
  decide

/-- C3: branch-heads/<branch>/<i> entries exist in the snapshot iff the
branch has strictly more than one open head and i indexes one of them (so a
single-open-head branch gets none); when present, entry i targets the
revision of the i-th open head in ascending node order starting at 0; a
branch with exactly one open head appears as branch-tip/<branch> targeting
that head; and the enumerated open-head list is sorted ascending by node
id. -/
theorem snapshot_branch_heads (repo : RepoModel) (ign : Finset Nat)
    (tags : List (Bytes × Bytes)) (saved : List Bytes) (n2r : Bytes → Bytes)
    (relId : Bytes → Bytes → Bytes) (b : Bytes) (i : Nat)
    (hnd : (repo.branchmap.map Prod.fst).Nodup)
    (hne : ∀ e ∈ repo.branchmap, ∀ h ∈ e.2, h.node ≠ []) :
    ((buildSnapshotBranches (branching_info repo ign) tags saved n2r relId
        (bhKey b i)).isSome ↔
      2 ≤ (openOf repo ign b).length ∧ i < (openOf repo ign b).length) ∧
    (2 ≤ (openOf repo ign b).length → i < (openOf repo ign b).length →
      buildSnapshotBranches (branching_info repo ign) tags saved n2r relId
          (bhKey b i) =
        some ⟨n2r ((openOf repo ign b).getD i []), .revision⟩) ∧
    ((openOf repo ign b).length = 1 →
      buildSnapshotBranches (branching_info repo ign) tags saved n2r relId
          (tipKey b) =
        some ⟨n2r ((openOf repo ign b).getD 0 []), .revision⟩) ∧
    List.Pairwise (fun x y => lexLe x y = true) (openOf repo ign b) := by
  have hbiond : ((branching_info repo ign).openHeads.map Prod.fst).Nodup := by
    show (((repo.branchmap.foldl (branchStep ign)
      (⟨[], [], []⟩ : BranchAcc)).openHeads.filter
        (fun e => e.2.length ≠ 1)).map Prod.fst).Nodup
    exact List.Nodup.sublist
      (List.Sublist.map Prod.fst (List.filter_sublist _))
      (branchFold_nodup ign repo.branchmap).2
  have hbitnd : ((branching_info repo ign).tips.map Prod.fst).Nodup := by
    show ((repo.branchmap.foldl (branchStep ign)
      (⟨[], [], []⟩ : BranchAcc)).tips.map Prod.fst).Nodup
    exact (branchFold_nodup ign repo.branchmap).1
  have hk1 := buildSnapshot_bhKey (branching_info repo ign) tags saved n2r
    relId b i hbiond
  have hk2 := buildSnapshot_tipKey (branching_info repo ign) tags saved n2r
    relId b hbitnd
  rw [branching_info_open_lookup repo ign b hnd hne] at hk1
  rw [branching_info_tips_lookup repo ign b hnd hne] at hk2
  refine ⟨?_, ?_, ?_, ?_⟩
  · rw [hk1]
    by_cases h2 : 2 ≤ (openOf repo ign b).length
    · rw [if_pos h2]
      simp only [openLookup]
      by_cases hi : i < (openOf repo ign b).length
      · rw [if_pos hi]
        simp [h2, hi]
      · rw [if_neg hi]
        simp [h2, hi]
    · rw [if_neg h2]
      simp only [openLookup]
      simp [h2]
  · intro h2 hi
    rw [hk1, if_pos h2]
    simp only [openLookup]
    rw [if_pos hi]
  · intro h1
    rw [hk2]
    cases hF : openOf repo ign b with
    | nil =>
      rw [hF] at h1
      exact absurd h1 (by simp)
    | cons x xs => rfl
  · show List.Pairwise _
      (openFilter ign (sortByNode ((hGet repo.branchmap b).getD [])))
    unfold openFilter
    rw [List.pairwise_map]
    exact List.Pairwise.filter _
      (sortByNode_sorted ((hGet repo.branchmap b).getD []))

/-- A repository whose default-named branch [100] has the two open heads
[2] and [1]: the snapshot enumerates branch-heads/<b>/0 as the smaller
node [1]. -/
def c3Repo : RepoModel :=
  { branchmap := [([100], [⟨0, [2], false⟩, ⟨1, [1], false⟩])],
    bookmarks := [],
    nodeBranch := fun _ => [100] }

theorem snapshot_branch_heads_witness :
    buildSnapshotBranches (branching_info c3Repo ∅) [] [] (fun n => n)
        (fun _ _ => []) (bhKey [100] 0) =
      some ⟨[1], SnapTargetType.revision⟩ := by
  have h := snapshot_branch_heads c3Repo ∅ [] [] (fun n => n)
    (fun _ _ => []) [100] 0 (by decide) (by decide)
  rw [h.2.1 (by decide) (by decide)]
  decide
